import Mathlib

/-!
# Area assembly: `osmium/area/assembler_legacy.hpp`

A shallow embedding of `osmium::area::AssemblerLegacy`: the tag merge
(`add_common_tags`, `add_tags_to_area`), the way and relation entry points
(`operator()`), the commit decision and the inner-ring check.

Conventions of the embedding.

* A C string (`const char*`) is a `String` holding the bytes before the
  terminating NUL; a `std::string` that may contain NUL bytes is a
  `List Char`.
* Counters (`std::size_t`, `uint64_t`) are `Nat`: they count tags, ways and
  calls and cannot reach `2^64` on data that fits in memory.
* A `const osmium::Way*` is a `WayPtr`: the address together with the way
  stored there. `std::set<const osmium::Way*>` is a list kept sorted by
  address without repetition.
* The output buffer is the list of committed areas. The object being
  written by an `AreaBuilder` is an `Area` value threaded through the
  builder calls; `commit` appends it to the buffer and `rollback` leaves
  the buffer as it was. Reading the area back at `area_offset` gives that
  value after a commit and after a rollback alike, since a rollback only
  resets the write cursor.
* The collaborators that are not part of this file (segment extraction and
  ring building) are fields of `Collaborators`; every theorem is stated for
  all of them.
* Calls to the problem reporter and debug output change nothing that is
  modelled and are left out.
-/

namespace AssemblerLegacy

/-! ## Data model -/

/-- One tag (`osmium::Tag`): key and value, both C strings. -/
structure Tag where
  key : String
  value : String
deriving DecidableEq, Repr

/-- The tag list of an object (`osmium::TagList`), in stored order. -/
abbrev TagList := List Tag

/-- One node reference of a way (`osmium::NodeRef`): node id and location. -/
structure NodeRef where
  ref : Int
  location : Int × Int
deriving DecidableEq, Repr

/-- A way (`osmium::Way`). -/
structure Way where
  id : Int
  nodes : List NodeRef
  tags : TagList
deriving DecidableEq, Repr

/-- A pointer to a way (`const osmium::Way*`): the address and the way at it. -/
structure WayPtr where
  addr : Nat
  way : Way
deriving DecidableEq, Repr

/-- One member of a relation (`osmium::RelationMember`): its role. -/
structure RelationMember where
  role : String
deriving DecidableEq, Repr

/-- A relation (`osmium::Relation`). -/
structure Relation where
  id : Int
  tags : TagList
  members : List RelationMember
deriving DecidableEq, Repr

/-- A ring produced by ring building (`detail::ProtoRing`): whether it is an
outer ring and the ways that contributed to it. -/
structure Ring where
  is_outer : Bool
  ways : List WayPtr
deriving DecidableEq, Repr

/-- The area under construction or committed (`osmium::Area`): where it comes
from, its tags and its rings. -/
structure Area where
  from_way : Bool
  orig_id : Int
  tags : TagList
  rings : List Ring
deriving DecidableEq, Repr

/-- The output buffer (`osmium::memory::Buffer`): the committed areas. -/
abbrev Buffer := List Area

/-- Modelled from the spec: the options of `osmium::area::AssemblerConfig`
(assembler_config.hpp is not among the sources), as listed in §6. -/
structure Config where
  create_way_polygons : Bool
  create_empty_areas : Bool
  ignore_invalid_locations : Bool
  keep_type_tag : Bool
  create_new_style_polygons : Bool
  create_old_style_polygons : Bool
  debug_level : Int
deriving DecidableEq, Repr

/-- Modelled from the spec: the counters of `osmium::area::area_stats`
(stats.hpp is not among the sources), the twelve of §3. -/
structure Stats where
  short_ways : Nat
  duplicate_nodes : Nat
  duplicate_ways : Nat
  invalid_locations : Nat
  from_ways : Nat
  from_relations : Nat
  member_ways : Nat
  no_way_in_mp_relation : Nat
  single_way_in_mp_relation : Nat
  no_tags_on_relation : Nat
  inner_with_same_tags : Nat
  wrong_role : Nat
deriving DecidableEq, Repr

/-- The counters of a freshly constructed assembler. -/
def Stats.zero : Stats :=
  ⟨0, 0, 0, 0, 0, 0, 0, 0, 0, 0, 0, 0⟩

/-- Modelled from the spec: `area_stats::operator+=` (stats.hpp is not among
the sources), the pairwise addition of §3. -/
def Stats.add (a b : Stats) : Stats :=
  { short_ways := a.short_ways + b.short_ways
    duplicate_nodes := a.duplicate_nodes + b.duplicate_nodes
    duplicate_ways := a.duplicate_ways + b.duplicate_ways
    invalid_locations := a.invalid_locations + b.invalid_locations
    from_ways := a.from_ways + b.from_ways
    from_relations := a.from_relations + b.from_relations
    member_ways := a.member_ways + b.member_ways
    no_way_in_mp_relation := a.no_way_in_mp_relation + b.no_way_in_mp_relation
    single_way_in_mp_relation := a.single_way_in_mp_relation + b.single_way_in_mp_relation
    no_tags_on_relation := a.no_tags_on_relation + b.no_tags_on_relation
    inner_with_same_tags := a.inner_with_same_tags + b.inner_with_same_tags
    wrong_role := a.wrong_role + b.wrong_role }

/-- What segment extraction reports: the number of invalid locations (the
return value) and the numbers it adds to the `duplicate_nodes` and
`duplicate_ways` counters passed by reference. -/
structure Extracted where
  invalid_locations : Nat
  duplicate_nodes : Nat
  duplicate_ways : Nat
deriving DecidableEq, Repr

/-- What ring building leaves behind: the result of `create_rings()`, the
number of members with a wrong role it counted, and `rings()`. -/
structure RingResult where
  okay : Bool
  wrong_role : Nat
  rings : List Ring
deriving DecidableEq, Repr

/-- Modelled from the spec: the Segment Extractor and the Ring Builder of §6
(`detail::SegmentList` and `detail::BasicAssembler::create_rings`, not among
the sources). Each is a function of the object being assembled. Among the
counters of `Stats`, extraction adds to `duplicate_nodes` and
`duplicate_ways`, ring building adds to `wrong_role`. -/
structure Collaborators where
  extract_segments_from_way : Way → Extracted
  extract_segments_from_ways : Relation → List WayPtr → Extracted
  create_rings_way : Way → RingResult
  create_rings_relation : Relation → List WayPtr → RingResult

/-! ## Helpers of the libosmium object model -/

/-- Modelled from the spec: `TagList::has_tag(key, value)` (tag.hpp is not
among the sources): the list carries the tag `key=value`. -/
def has_tag (tags : TagList) (key value : String) : Bool :=
  tags.any (fun t => t.key == key && t.value == value)

/-- Modelled from the spec: `Way::ends_have_same_id()` (way.hpp is not among
the sources): first and last node ids are equal, §3. -/
def ends_have_same_id (way : Way) : Bool :=
  match way.nodes.head?, way.nodes.getLast? with
  | some a, some b => a.ref == b.ref
  | _, _ => false

/-- Modelled from the spec: `Way::is_closed()` (way.hpp is not among the
sources): closed iff first and last node ids are equal and the sequence has
at least one entry, §3. -/
def is_closed (way : Way) : Bool :=
  ends_have_same_id way

/-- Modelled from the spec: `copy_tags_without_type` of
`detail::BasicAssemblerWithTags` (not among the sources): the tags with the
ones of key `type` dropped, §4.1 step 2. -/
def copy_tags_without_type (tags : TagList) : TagList :=
  tags.filter (fun t => t.key != "type")

/-- Modelled from the spec: `osmium::tags::KeyFilter` (tags/filter.hpp is not
among the sources): rules `(result, key)` and a default result. -/
structure KeyFilter where
  default_result : Bool
  rules : List (Bool × String)
deriving DecidableEq, Repr

/-- Modelled from the spec: `KeyFilter::add(result, key)` appends a rule. -/
def KeyFilter.add (f : KeyFilter) (result : Bool) (key : String) : KeyFilter :=
  { f with rules := f.rules ++ [(result, key)] }

/-- Modelled from the spec: `KeyFilter::operator()(tag)`: the result of the
first rule whose key is the tag's key, the default result if there is none. -/
def KeyFilter.apply (f : KeyFilter) (t : Tag) : Bool :=
  match f.rules.find? (fun r => r.2 == t.key) with
  | some r => r.1
  | none => f.default_result

/-- The constructor of `MPFilter`, lines 102-113. -/
def MPFilter : KeyFilter :=
  ((((((KeyFilter.mk true []).add false "type").add false "created_by").add false
    "source").add false "note").add false "test:id").add false "test:section"

/-- The static filter, `filter()` of lines 115-118, applied to a tag. -/
def filter (t : Tag) : Bool :=
  MPFilter.apply t

/-- The keys of the ignore-set of §4.1. -/
def ignored_keys : List String :=
  ["type", "created_by", "source", "note", "test:id", "test:section"]

/-! ## Tag merge: `add_common_tags` -/

/-- The NUL byte appended between key and value. -/
def NUL : Char := Char.ofNat 0

/-- Whether a C string of the model is a legal C string: it has no NUL. -/
def nul_free (s : String) : Bool :=
  s.toList.all (fun c => c != NUL)

/-- The comparison of `std::less<std::string>`: lexicographic on the bytes. -/
def string_lt : List Char → List Char → Bool
  | [], [] => false
  | [], _ :: _ => true
  | _ :: _, [] => false
  | a :: as, b :: bs =>
    if a.toNat < b.toNat then true
    else if b.toNat < a.toNat then false
    else string_lt as bs

/-- The statement `++counter[kv]` on a `std::map<std::string, std::size_t>`,
held as the list of its entries in key order. -/
def counter_incr (kv : List Char) : List (List Char × Nat) → List (List Char × Nat)
  | [] => [(kv, 1)]
  | (k, c) :: rest =>
    if kv = k then (k, c + 1) :: rest
    else if string_lt kv k then (kv, 1) :: (k, c) :: rest
    else (k, c) :: counter_incr kv rest

/-- The string `kv` of lines 83-85: key, a NUL, value. -/
def kv_of (tag : Tag) : List Char :=
  tag.key.toList ++ [NUL] ++ tag.value.toList

/-- The C string starting at a position of a buffer: the bytes before the
first NUL (`c_str()` read as `const char*`). -/
def c_str (s : List Char) : String :=
  String.mk (s.takeWhile (fun c => c != NUL))

/-- The call `std::strlen(s.c_str())`. -/
def strlen (s : List Char) : Nat :=
  (c_str s).length

/-- The call `tl_builder.add_tag(t_c.first.c_str(), t_c.first.c_str() + len + 1)`
of lines 96-97: the tag read back from a map key. -/
def tag_of_kv (kv : List Char) : Tag :=
  let len := strlen kv
  ⟨c_str kv, c_str (kv.drop (len + 1))⟩

/-- The first loop of `add_common_tags`, lines 80-88: the map `counter`. -/
def count_tags (ways : List WayPtr) : List (List Char × Nat) :=
  ways.foldl (fun counter way =>
    way.way.tags.foldl (fun counter tag => counter_incr (kv_of tag) counter) counter) []

/-- The function `add_common_tags`, lines 79-100: the tags added to the tag
list builder, in the order they are added. -/
def add_common_tags (ways : List WayPtr) : TagList :=
  let counter := count_tags ways
  let num_ways := ways.length
  (counter.filter (fun t_c => t_c.2 == num_ways)).map (fun t_c => tag_of_kv t_c.1)

/-! ## Tag selection: `add_tags_to_area` -/

/-- The call `add_tags_to_area(builder, way)`, lines 75-77: the way's tag list
is added to the area. -/
def add_tags_to_area_way (builder : Area) (way : Way) : Area :=
  { builder with tags := way.tags }

/-- The call `ways.insert(p)` on a `std::set<const osmium::Way*>`, held as the
list of its elements in address order. -/
def set_insert (p : WayPtr) : List WayPtr → List WayPtr
  | [] => [p]
  | q :: rest =>
    if p.addr = q.addr then q :: rest
    else if p.addr < q.addr then p :: q :: rest
    else q :: set_insert p rest

/-- Modelled from the spec: `ring.get_ways(ways)` (`detail::ProtoRing`, not
among the sources) inserts the ways contributing to the ring into the set. -/
def get_ways (ring : Ring) (ways : List WayPtr) : List WayPtr :=
  ring.ways.foldl (fun s p => set_insert p s) ways

/-- The loop of lines 142-147: the set of the ways of all outer rings. -/
def outer_ways (rings : List Ring) : List WayPtr :=
  rings.foldl (fun ways ring => if ring.is_outer then get_ways ring ways else ways) []

/-- The fallback of lines 148-159: one way gives its tags, otherwise the
common tags. -/
def tags_from_ways (ways : List WayPtr) : TagList :=
  match ways with
  | [p] => p.way.tags
  | _ => add_common_tags ways

/-- The call `add_tags_to_area(builder, relation)`, lines 120-161, with the
rings left by ring building: the counters and the area afterwards. -/
def add_tags_to_area_relation (cfg : Config) (st : Stats) (rings : List Ring)
    (builder : Area) (relation : Relation) : Stats × Area :=
  let count := relation.tags.countP filter
  if count > 0 then
    if cfg.keep_type_tag then
      (st, { builder with tags := relation.tags })
    else
      (st, { builder with tags := copy_tags_without_type relation.tags })
  else
    let st := { st with no_tags_on_relation := st.no_tags_on_relation + 1 }
    let ways := outer_ways rings
    (st, { builder with tags := tags_from_ways ways })

/-! ## Way assembly -/

/-- Modelled from the spec: `builder.initialize_from_object(way)`
(`AreaBuilder`, not among the sources): an area that records the way it comes
from, without tags and rings yet. -/
def initialize_from_way (way : Way) : Area :=
  { from_way := true, orig_id := way.id, tags := [], rings := [] }

/-- Modelled from the spec: `builder.initialize_from_object(relation)`
(`AreaBuilder`, not among the sources). -/
def initialize_from_relation (relation : Relation) : Area :=
  { from_way := false, orig_id := relation.id, tags := [], rings := [] }

/-- The function `create_area(out_buffer, way)`, lines 163-180: the result, the
counters and the area written (not yet committed). -/
def create_area_way (cfg : Config) (env : Collaborators) (st : Stats) (way : Way) :
    Bool × Stats × Area :=
  let builder := initialize_from_way way
  let rr := env.create_rings_way way
  let st := { st with wrong_role := st.wrong_role + rr.wrong_role }
  let area_okay := rr.okay
  let builder :=
    if area_okay || cfg.create_empty_areas then add_tags_to_area_way builder way else builder
  let builder := if area_okay then { builder with rings := rr.rings } else builder
  (area_okay || cfg.create_empty_areas, st, builder)

/-- The counter updates of lines 239-249: the end-point check, `from_ways` and
what segment extraction reports. -/
def count_way (env : Collaborators) (st : Stats) (way : Way) : Stats :=
  let st :=
    if !ends_have_same_id way then { st with duplicate_nodes := st.duplicate_nodes + 1 }
    else st
  let st := { st with from_ways := st.from_ways + 1 }
  let ex := env.extract_segments_from_way way
  { st with duplicate_nodes := st.duplicate_nodes + ex.duplicate_nodes,
            invalid_locations := ex.invalid_locations }

/-- The way entry point `operator()(way, out_buffer)`, lines 219-272: the
returned value, the counters and the buffer afterwards. -/
def assemble_way (cfg : Config) (env : Collaborators) (st : Stats) (out_buffer : Buffer)
    (way : Way) : Bool × Stats × Buffer :=
  if !cfg.create_way_polygons then
    (true, st, out_buffer)
  else if has_tag way.tags "area" "no" then
    (true, st, out_buffer)
  else if way.nodes.length < 2 then
    (false, { st with short_ways := st.short_ways + 1 }, out_buffer)
  else
    let st := count_way env st way
    if !cfg.ignore_invalid_locations && st.invalid_locations > 0 then
      (false, st, out_buffer)
    else
      let r := create_area_way cfg env st way
      let okay := r.1
      if okay then (okay, r.2.1, out_buffer ++ [r.2.2])
      else (okay, r.2.1, out_buffer)

/-! ## Relation assembly -/

/-- The function `create_area(out_buffer, relation, members)`, lines 182-202:
the result, the counters and the area written (not yet committed). -/
def create_area_relation (cfg : Config) (env : Collaborators) (st : Stats)
    (relation : Relation) (members : List WayPtr) : Bool × Stats × Area :=
  let builder := initialize_from_relation relation
  let rr := env.create_rings_relation relation members
  let st := { st with wrong_role := st.wrong_role + rr.wrong_role }
  let area_okay := rr.okay
  let r :=
    if area_okay || cfg.create_empty_areas then
      add_tags_to_area_relation cfg st rr.rings builder relation
    else (st, builder)
  let builder := if area_okay then { r.2 with rings := rr.rings } else r.2
  (area_okay || cfg.create_empty_areas, r.1, builder)

/-- The commit decision of lines 317-326: whether `out_buffer.commit()` is
called (otherwise `out_buffer.rollback()` is). -/
def commits (cfg : Config) (st : Stats) (okay : Bool) : Bool :=
  if okay then
    if (cfg.create_new_style_polygons && st.no_tags_on_relation == 0) ||
       (cfg.create_old_style_polygons && st.no_tags_on_relation != 0) then true
    else false
  else false

/-- The three-iterator `std::equal(first1, last1, first2)` on tags: the first
range is compared element by element with what starts at `first2`. When the
second range ends first, the C++ call reads past its end; `past_end` is what
the comparison of such an element yields. -/
def std_equal (past_end : Bool) : List Tag → List Tag → Bool
  | [], _ => true
  | _ :: xs, [] => past_end && std_equal past_end xs []
  | x :: xs, y :: ys => x == y && std_equal past_end xs ys

/-- The condition of line 346 on the tags of the way and of the area: true
when the way is to become an area of its own. The result does not depend on
what is read past the end of the area's tags (`test_past_end_irrelevant`),
so `false` is taken there. -/
def tags_differ (way_tags area_tags : TagList) : Bool :=
  let d := way_tags.countP filter
  !std_equal false (way_tags.filter filter) (area_tags.filter filter) ||
    d != (area_tags.filter filter).length

/-- The body of the lambda of lines 336-357 for one member and its way, on
the counters and the list `ways_that_should_be_areas`. -/
def inner_ring_check (area_tags : TagList) (acc : Stats × List WayPtr)
    (member : RelationMember) (way : WayPtr) : Stats × List WayPtr :=
  if member.role == "inner" then
    if !way.way.nodes.isEmpty && is_closed way.way && way.way.tags.length > 0 then
      let d := way.way.tags.countP filter
      if d > 0 then
        if tags_differ way.way.tags area_tags then
          (acc.1, acc.2 ++ [way])
        else
          ({ acc.1 with inner_with_same_tags := acc.1.inner_with_same_tags + 1 }, acc.2)
      else acc
    else acc
  else acc

/-- Modelled from the spec: `detail::for_each_member(relation, members, func)`
(not among the sources): `func` is called on every relation member paired
with its resolved way, in member order (§3 ResolvedMember, §4.2). -/
def for_each_member {σ : Type} (relation : Relation) (members : List WayPtr)
    (func : σ → RelationMember → WayPtr → σ) (init : σ) : σ :=
  (relation.members.zip members).foldl (fun s mw => func s mw.1 mw.2) init

/-- The inner-ring check of lines 334-358: the counters afterwards and the
list `ways_that_should_be_areas`. -/
def reclassify (st : Stats) (relation : Relation) (members : List WayPtr)
    (area_tags : TagList) : Stats × List WayPtr :=
  if st.wrong_role == 0 then
    for_each_member relation members (inner_ring_check area_tags) (st, [])
  else (st, [])

/-- The loop of lines 365-371: one fresh assembler per way, its counters
added to the parent's, its failure making the result false. -/
def build_inner_areas (cfg : Config) (env : Collaborators) (ways : List WayPtr)
    (acc : Bool × Stats × Buffer) : Bool × Stats × Buffer :=
  ways.foldl (fun acc way =>
    let r := assemble_way cfg env Stats.zero acc.2.2 way.way
    (if !r.1 then false else acc.1, acc.2.1.add r.2.1, r.2.2)) acc

/-- The counter updates of lines 293-298: `from_relations` and what segment
extraction reports. -/
def count_extraction (env : Collaborators) (st : Stats) (relation : Relation)
    (members : List WayPtr) : Stats :=
  let st := { st with from_relations := st.from_relations + 1 }
  let ex := env.extract_segments_from_ways relation members
  { st with duplicate_nodes := st.duplicate_nodes + ex.duplicate_nodes,
            duplicate_ways := st.duplicate_ways + ex.duplicate_ways,
            invalid_locations := ex.invalid_locations }

/-- The counter updates of lines 302-306: `member_ways` and
`single_way_in_mp_relation`. -/
def count_members (st : Stats) (members : List WayPtr) : Stats :=
  let st := { st with member_ways := members.length }
  if st.member_ways == 1 then
    { st with single_way_in_mp_relation := st.single_way_in_mp_relation + 1 }
  else st

/-- The relation entry point `operator()(relation, members, out_buffer)`,
lines 281-374: the returned value, the counters and the buffer afterwards. -/
def assemble_relation (cfg : Config) (env : Collaborators) (st : Stats) (out_buffer : Buffer)
    (relation : Relation) (members : List WayPtr) : Bool × Stats × Buffer :=
  if relation.members.isEmpty then
    (false, { st with no_way_in_mp_relation := st.no_way_in_mp_relation + 1 }, out_buffer)
  else
    let st := count_extraction env st relation members
    if !cfg.ignore_invalid_locations && st.invalid_locations > 0 then
      (false, st, out_buffer)
    else
      let st := count_members st members
      let r := create_area_relation cfg env st relation members
      let okay := r.1
      let st := r.2.1
      let out_buffer := if commits cfg st okay then out_buffer ++ [r.2.2] else out_buffer
      let area_tags := r.2.2.tags
      let rc := reclassify st relation members area_tags
      build_inner_areas cfg env rc.2 (okay, rc.1, out_buffer)

/-! ## Vocabulary of the statements -/

/-- The entries of a `std::map` are in strictly increasing key order. -/
def KeySorted (m : List (List Char × Nat)) : Prop :=
  m.Pairwise (fun a b => string_lt a.1 b.1 = true)

/-- The value stored under a key, `0` when the key is absent. -/
def lookup (kv : List Char) : List (List Char × Nat) → Nat
  | [] => 0
  | (k, c) :: rest => if kv = k then c else lookup kv rest

/-- All the strings `kv` built by the first loop of `add_common_tags`, in the
order they are counted. -/
def all_kvs : List WayPtr → List (List Char)
  | [] => []
  | w :: ws => w.way.tags.map kv_of ++ all_kvs ws

/-- The tags of a list are C strings: no key and no value contains a NUL. -/
def tags_wf (tags : TagList) : Bool :=
  tags.all (fun t => nul_free t.key && nul_free t.value)

/-- The tags of a list whose key is not in the ignore-set, in stored order. -/
def non_ignored (tags : TagList) : TagList :=
  tags.filter (fun t => decide (t.key ∉ ignored_keys))

/-- A member the inner-ring check compares: its role is exactly "inner", its
way has nodes, is closed and has a tag outside the ignore-set. -/
def eligible_inner (member : RelationMember) (way : WayPtr) : Bool :=
  member.role == "inner" && !way.way.nodes.isEmpty && is_closed way.way &&
    decide (non_ignored way.way.tags ≠ [])

/-- The counters when `create_area` has returned in relation assembly, at the
commit decision of line 317. -/
def counters_at_commit (cfg : Config) (env : Collaborators) (st : Stats)
    (relation : Relation) (members : List WayPtr) : Stats :=
  (create_area_relation cfg env
    (count_members (count_extraction env st relation members) members) relation members).2.1

/-- The area written by `create_area` in relation assembly, the one read back
at line 328. -/
def area_built (cfg : Config) (env : Collaborators) (st : Stats)
    (relation : Relation) (members : List WayPtr) : Area :=
  (create_area_relation cfg env
    (count_members (count_extraction env st relation members) members) relation members).2.2

/-- The comparison the inner-ring check stands for: the sequence of the way's
non-ignored tags, in tag-list order, differs from the sequence of the area's
non-ignored tags, in tag-list order (tags are equal when key and value are). -/
def filtered_sequences_differ (way_tags area_tags : TagList) : Bool :=
  decide (non_ignored way_tags ≠ non_ignored area_tags)

/-- The child assemblies of the loop of lines 365-371, in order: each runs way
assembly on one listed way, on a fresh assembler (zeroed counters) with the
parent's configuration, on the buffer as the previous child left it. -/
def child_runs (cfg : Config) (env : Collaborators) :
    List WayPtr → Buffer → List (Bool × Stats × Buffer)
  | [], _ => []
  | w :: ws, buf =>
    assemble_way cfg env Stats.zero buf w.way ::
      child_runs cfg env ws (assemble_way cfg env Stats.zero buf w.way).2.2

/-- The counter-wise sum of a list of counters. -/
def Stats.sum (l : List Stats) : Stats :=
  l.foldr Stats.add Stats.zero

/-- The buffer after the last of a list of runs, or the given one when there
is none. -/
def last_buffer (buf : Buffer) : List (Bool × Stats × Buffer) → Buffer
  | [] => buf
  | r :: rs => last_buffer r.2.2 rs

/-- The list `ways_that_should_be_areas` when the inner-ring check of a
relation assembly is done (line 358). -/
def flagged_ways (cfg : Config) (env : Collaborators) (st : Stats)
    (relation : Relation) (members : List WayPtr) : List WayPtr :=
  (reclassify (counters_at_commit cfg env st relation members) relation members
    (area_built cfg env st relation members).tags).2

/-- The parent's counters just before the child loop (line 364). -/
def counters_before_children (cfg : Config) (env : Collaborators) (st : Stats)
    (relation : Relation) (members : List WayPtr) : Stats :=
  (reclassify (counters_at_commit cfg env st relation members) relation members
    (area_built cfg env st relation members).tags).1

/-- The buffer just before the child loop: the relation's area has been
committed or rolled back. -/
def buffer_before_children (cfg : Config) (env : Collaborators) (st : Stats) (buf : Buffer)
    (relation : Relation) (members : List WayPtr) : Buffer :=
  if commits cfg (counters_at_commit cfg env st relation members)
      ((env.create_rings_relation relation members).okay || cfg.create_empty_areas) = true then
    buf ++ [area_built cfg env st relation members]
  else buf

/-- Every counter of `a` is at most the same counter of `b`. -/
def Stats.le (a b : Stats) : Prop :=
  a.short_ways ≤ b.short_ways ∧ a.duplicate_nodes ≤ b.duplicate_nodes ∧
  a.duplicate_ways ≤ b.duplicate_ways ∧ a.invalid_locations ≤ b.invalid_locations ∧
  a.from_ways ≤ b.from_ways ∧ a.from_relations ≤ b.from_relations ∧
  a.member_ways ≤ b.member_ways ∧ a.no_way_in_mp_relation ≤ b.no_way_in_mp_relation ∧
  a.single_way_in_mp_relation ≤ b.single_way_in_mp_relation ∧
  a.no_tags_on_relation ≤ b.no_tags_on_relation ∧
  a.inner_with_same_tags ≤ b.inner_with_same_tags ∧ a.wrong_role ≤ b.wrong_role

/-- Every counter of `a` other than invalid_locations and member_ways is at
most the same counter of `b`. -/
def Stats.le_accumulated (a b : Stats) : Prop :=
  a.short_ways ≤ b.short_ways ∧ a.duplicate_nodes ≤ b.duplicate_nodes ∧
  a.duplicate_ways ≤ b.duplicate_ways ∧
  a.from_ways ≤ b.from_ways ∧ a.from_relations ≤ b.from_relations ∧
  a.no_way_in_mp_relation ≤ b.no_way_in_mp_relation ∧
  a.single_way_in_mp_relation ≤ b.single_way_in_mp_relation ∧
  a.no_tags_on_relation ≤ b.no_tags_on_relation ∧
  a.inner_with_same_tags ≤ b.inner_with_same_tags ∧ a.wrong_role ≤ b.wrong_role

/-- The relation's area has been committed by a relation assembly that started
on buffer `buf` and ended in `r`: right after what the buffer held comes an
area made from a relation (the child assemblies only commit areas made from
ways). -/
def relation_area_committed (buf : Buffer) (r : Bool × Stats × Buffer) : Prop :=
  ∃ a rest, r.2.2 = buf ++ a :: rest ∧ a.from_way = false

/-- The order of tags by key, then by value, each compared byte-wise. -/
def tag_lt (a b : Tag) : Bool :=
  string_lt a.key.toList b.key.toList ||
    (a.key == b.key && string_lt a.value.toList b.value.toList)

/-- The number of times a tag is listed by the ways, repetitions inside one
way included. -/
def occurrences (t : Tag) : List WayPtr → Nat
  | [] => 0
  | w :: ws => w.way.tags.count t + occurrences t ws

/-! ## Example inputs -/

/-- Collaborators that find nothing wrong: no invalid location, no duplicate,
ring building succeeds with one outer ring made of the given ways. -/
def env_ok : Collaborators :=
  { extract_segments_from_way := fun _ => ⟨0, 0, 0⟩
    extract_segments_from_ways := fun _ _ => ⟨0, 0, 0⟩
    create_rings_way := fun w => ⟨true, 0, [⟨true, [⟨0, w⟩]⟩]⟩
    create_rings_relation := fun _ ms => ⟨true, 0, [⟨true, ms⟩]⟩ }

/-- Collaborators whose ring building fails. -/
def env_no_rings : Collaborators :=
  { extract_segments_from_way := fun _ => ⟨0, 0, 0⟩
    extract_segments_from_ways := fun _ _ => ⟨0, 0, 0⟩
    create_rings_way := fun _ => ⟨false, 0, []⟩
    create_rings_relation := fun _ _ => ⟨false, 0, []⟩ }

/-- A configuration with way polygons and new-style multipolygons only. -/
def cfg_new_style : Config :=
  { create_way_polygons := true, create_empty_areas := false,
    ignore_invalid_locations := false, keep_type_tag := false,
    create_new_style_polygons := true, create_old_style_polygons := false,
    debug_level := 0 }

/-- The closed node sequence 1, 2, 3, 1. -/
def closed_nodes : List NodeRef :=
  [⟨1, (0, 0)⟩, ⟨2, (1, 0)⟩, ⟨3, (1, 1)⟩, ⟨1, (0, 0)⟩]

/-- A relation without tags of its own beyond `type`, with two members. -/
def untagged_relation : Relation :=
  { id := 7, tags := [⟨"type", "multipolygon"⟩], members := [⟨"outer"⟩, ⟨"outer"⟩] }

/-- Two outer ways both tagged landuse=forest, source=x (scenario B of §8). -/
def forest_rings : List Ring :=
  [⟨true, [⟨1, ⟨10, closed_nodes, [⟨"landuse", "forest"⟩, ⟨"source", "x"⟩]⟩⟩,
           ⟨2, ⟨11, closed_nodes, [⟨"landuse", "forest"⟩, ⟨"source", "x"⟩]⟩⟩]⟩]

/-- Two outer ways, the first listing each of its two tags twice, the second
carrying one other tag. -/
def doubled_rings : List Ring :=
  [⟨true, [⟨1, ⟨10, closed_nodes, [⟨"natural", "water"⟩, ⟨"natural", "water"⟩,
                                   ⟨"name", "Lake"⟩, ⟨"name", "Lake"⟩]⟩⟩,
           ⟨2, ⟨11, closed_nodes, [⟨"landuse", "forest"⟩]⟩⟩]⟩]

/-- A multipolygon relation tagged name=Lake, natural=water, with an outer
and an inner member. -/
def lake_relation : Relation :=
  { id := 5, tags := [⟨"name", "Lake"⟩, ⟨"natural", "water"⟩, ⟨"type", "multipolygon"⟩],
    members := [⟨"outer"⟩, ⟨"inner"⟩] }

/-- The untagged outer way of the lake. -/
def lake_outer : WayPtr :=
  ⟨1, ⟨20, closed_nodes, []⟩⟩

/-- An inner way with the lake's tags and an ignored tag in between. -/
def island_same : WayPtr :=
  ⟨2, ⟨21, closed_nodes, [⟨"name", "Lake"⟩, ⟨"source", "survey"⟩, ⟨"natural", "water"⟩]⟩⟩

/-- An inner way with the lake's tags stored in the other order. -/
def island_reordered : WayPtr :=
  ⟨2, ⟨21, closed_nodes, [⟨"natural", "water"⟩, ⟨"name", "Lake"⟩]⟩⟩

/-- An inner way with the lake's tags and one more. -/
def island_superset : WayPtr :=
  ⟨2, ⟨21, closed_nodes, [⟨"name", "Lake"⟩, ⟨"natural", "water"⟩, ⟨"place", "island"⟩]⟩⟩

/-- A configuration that does not build areas from ways. -/
def cfg_no_way_polygons : Config :=
  { cfg_new_style with create_way_polygons := false }

/-- A new-style configuration that also emits empty areas. -/
def cfg_empty_areas : Config :=
  { cfg_new_style with create_empty_areas := true }

/-- Collaborators whose ring building succeeds and counts one member with a
wrong role. -/
def env_wrong_role : Collaborators :=
  { env_ok with create_rings_relation := fun _ ms => ⟨true, 1, [⟨true, ms⟩]⟩ }

/-- A relation without members. -/
def empty_relation : Relation :=
  { id := 9, tags := [⟨"type", "multipolygon"⟩, ⟨"landuse", "forest"⟩], members := [] }

/-- Collaborators that find nothing wrong and build an outer ring from the
first member way and an inner ring from the others. -/
def env_outer_inner : Collaborators :=
  { env_ok with
    create_rings_relation := fun _ ms => ⟨true, 0, [⟨true, ms.take 1⟩, ⟨false, ms.drop 1⟩]⟩ }

/-- A configuration with way polygons and old-style multipolygons only. -/
def cfg_old_style : Config :=
  { cfg_new_style with create_new_style_polygons := false, create_old_style_polygons := true }

/-- A multipolygon relation without tags of its own, with an outer and an
inner member. -/
def untagged_lake_relation : Relation :=
  { id := 8, tags := [⟨"type", "multipolygon"⟩], members := [⟨"outer"⟩, ⟨"inner"⟩] }

/-- A closed inner way whose only tag is an ignored one. -/
def source_only_island : WayPtr :=
  ⟨2, ⟨21, closed_nodes, [⟨"source", "survey"⟩]⟩⟩

/-- Collaborators whose segment extraction finds three invalid locations in
the way of id 1 and none elsewhere. -/
def env_invalid_in_way_1 : Collaborators :=
  { env_ok with
    extract_segments_from_way := fun w => if w.id = 1 then ⟨3, 0, 0⟩ else ⟨0, 0, 0⟩ }

/-- A new-style configuration that tolerates invalid locations. -/
def cfg_tolerant : Config :=
  { cfg_new_style with ignore_invalid_locations := true }

/-- A multipolygon relation tagged landuse=forest with one outer member. -/
def forest_relation : Relation :=
  { id := 6, tags := [⟨"landuse", "forest"⟩, ⟨"type", "multipolygon"⟩],
    members := [⟨"outer"⟩] }

/-- Collaborators whose segment extraction finds invalid locations in every
way (three) and in every relation (two), with successful ring building. -/
def env_invalid_locations : Collaborators :=
  { env_ok with
    extract_segments_from_way := fun _ => ⟨3, 0, 0⟩
    extract_segments_from_ways := fun _ _ => ⟨2, 0, 0⟩ }

/-- Two ways carrying natural=water, the first listing it twice. -/
def repeated_water_ways : List WayPtr :=
  [⟨1, ⟨10, closed_nodes, [⟨"natural", "water"⟩, ⟨"natural", "water"⟩]⟩⟩,
   ⟨2, ⟨11, closed_nodes, [⟨"natural", "water"⟩]⟩⟩]

/-- Three ways tagged alike up to the order of their tags. -/
def shuffled_ways : List WayPtr :=
  [⟨1, ⟨10, closed_nodes, [⟨"natural", "water"⟩, ⟨"name", "Lake"⟩]⟩⟩,
   ⟨2, ⟨11, closed_nodes, [⟨"name", "Lake"⟩, ⟨"natural", "water"⟩, ⟨"boat", "no"⟩]⟩⟩,
   ⟨3, ⟨12, closed_nodes, [⟨"name", "Lake"⟩, ⟨"natural", "water"⟩]⟩⟩]

/-- The ways of `shuffled_ways`, each with its tags in another order. -/
def shuffled_ways_tags : List WayPtr :=
  [⟨1, ⟨10, closed_nodes, [⟨"name", "Lake"⟩, ⟨"natural", "water"⟩]⟩⟩,
   ⟨2, ⟨11, closed_nodes, [⟨"boat", "no"⟩, ⟨"natural", "water"⟩, ⟨"name", "Lake"⟩]⟩⟩,
   ⟨3, ⟨12, closed_nodes, [⟨"natural", "water"⟩, ⟨"name", "Lake"⟩]⟩⟩]

/-- The ways of `shuffled_ways_tags` in another order. -/
def shuffled_ways_order : List WayPtr :=
  [⟨3, ⟨12, closed_nodes, [⟨"natural", "water"⟩, ⟨"name", "Lake"⟩]⟩⟩,
   ⟨1, ⟨10, closed_nodes, [⟨"name", "Lake"⟩, ⟨"natural", "water"⟩]⟩⟩,
   ⟨2, ⟨11, closed_nodes, [⟨"boat", "no"⟩, ⟨"natural", "water"⟩, ⟨"name", "Lake"⟩]⟩⟩]

/-! ## The order of `std::map` keys -/

theorem char_toNat_inj (a b : Char) (h : a.toNat = b.toNat) : a = b := by
  apply Char.ext
  apply UInt32.ext
  simpa [Char.toNat, UInt32.toNat] using h

theorem string_lt_irrefl (a : List Char) : string_lt a a = false := by
  induction a with
  | nil => rfl
  | cons x xs ih => simp [string_lt, ih]

theorem string_lt_trans (a b c : List Char) (hab : string_lt a b = true)
    (hbc : string_lt b c = true) : string_lt a c = true := by
  induction a generalizing b c with
  | nil =>
    cases b with
    | nil => simp [string_lt] at hab
    | cons y ys =>
      cases c with
      | nil => simp [string_lt] at hbc
      | cons z zs => simp [string_lt]
  | cons x xs ih =>
    cases b with
    | nil => simp [string_lt] at hab
    | cons y ys =>
      cases c with
      | nil => simp [string_lt] at hbc
      | cons z zs =>
        simp only [string_lt] at hab hbc ⊢
        split_ifs at hab hbc ⊢ <;> first | rfl | omega | exact ih ys zs hab hbc

theorem string_lt_total (a b : List Char) (hne : a ≠ b) (h : string_lt a b = false) :
    string_lt b a = true := by
  induction a generalizing b with
  | nil =>
    cases b with
    | nil => exact absurd rfl hne
    | cons y ys => simp [string_lt] at h
  | cons x xs ih =>
    cases b with
    | nil => simp [string_lt]
    | cons y ys =>
      simp only [string_lt] at h ⊢
      split_ifs at h ⊢ <;> first | rfl | omega | skip
      have hxy : x = y := char_toNat_inj x y (by omega)
      subst hxy
      exact ih ys (fun e => hne (by rw [e])) h

/-! ## The map `counter` -/

theorem lookup_eq_zero_of_lt (kv : List Char) (m : List (List Char × Nat))
    (h : ∀ e ∈ m, string_lt kv e.1 = true) : lookup kv m = 0 := by
  induction m with
  | nil => rfl
  | cons e rest ih =>
    obtain ⟨k, c⟩ := e
    have hk : string_lt kv k = true := h (k, c) (List.mem_cons_self _ _)
    have hne : kv ≠ k := by
      intro e
      rw [e, string_lt_irrefl] at hk
      exact Bool.false_ne_true hk
    simp only [lookup, if_neg hne]
    exact ih (fun e he => h e (List.mem_cons_of_mem _ he))

theorem mem_counter_incr (kv : List Char) (m : List (List Char × Nat)) (e : List Char × Nat)
    (he : e ∈ counter_incr kv m) : e.1 = kv ∨ e ∈ m := by
  induction m with
  | nil =>
    simp only [counter_incr, List.mem_singleton] at he
    left; rw [he]
  | cons x rest ih =>
    obtain ⟨k, c⟩ := x
    simp only [counter_incr] at he
    split_ifs at he with h1 h2
    · rcases List.mem_cons.1 he with h | h
      · left; rw [h]; exact h1.symm
      · right; exact List.mem_cons_of_mem _ h
    · rcases List.mem_cons.1 he with h | h
      · left; rw [h]
      · right; exact h
    · rcases List.mem_cons.1 he with h | h
      · right; rw [h]; exact List.mem_cons_self _ _
      · rcases ih h with h' | h'
        · left; exact h'
        · right; exact List.mem_cons_of_mem _ h'

theorem counter_incr_sorted (kv : List Char) (m : List (List Char × Nat)) (h : KeySorted m) :
    KeySorted (counter_incr kv m) := by
  induction m with
  | nil => simp [counter_incr, KeySorted]
  | cons x rest ih =>
    obtain ⟨k, c⟩ := x
    unfold KeySorted at h ⊢
    rw [List.pairwise_cons] at h
    simp only [counter_incr]
    split_ifs with h1 h2
    · rw [List.pairwise_cons]
      exact ⟨h.1, h.2⟩
    · rw [List.pairwise_cons]
      refine ⟨?_, List.pairwise_cons.2 h⟩
      intro e he
      rcases List.mem_cons.1 he with h' | h'
      · rw [h']; exact h2
      · exact string_lt_trans _ _ _ h2 (h.1 e h')
    · rw [List.pairwise_cons]
      refine ⟨?_, ih h.2⟩
      intro e he
      rcases mem_counter_incr kv rest e he with h' | h'
      · rw [h']
        exact string_lt_total kv k h1 (by simpa using h2)
      · exact h.1 e h'

theorem lookup_counter_incr_self (kv : List Char) (m : List (List Char × Nat))
    (h : KeySorted m) : lookup kv (counter_incr kv m) = lookup kv m + 1 := by
  induction m with
  | nil => simp [counter_incr, lookup]
  | cons x rest ih =>
    obtain ⟨k0, c0⟩ := x
    unfold KeySorted at h
    rw [List.pairwise_cons] at h
    by_cases h1 : kv = k0
    · simp [counter_incr, lookup, h1]
    · by_cases h2 : string_lt kv k0 = true
      · have hz : lookup kv ((k0, c0) :: rest) = 0 := by
          apply lookup_eq_zero_of_lt
          intro e he
          rcases List.mem_cons.1 he with h' | h'
          · rw [h']; exact h2
          · exact string_lt_trans _ _ _ h2 (h.1 e h')
        rw [hz]
        simp [counter_incr, lookup, h1, h2]
      · simp only [counter_incr, if_neg h1, if_neg h2, lookup]
        exact ih h.2

theorem lookup_counter_incr_other (kv k : List Char) (m : List (List Char × Nat))
    (hk : k ≠ kv) : lookup k (counter_incr kv m) = lookup k m := by
  induction m with
  | nil => simp [counter_incr, lookup, hk]
  | cons x rest ih =>
    obtain ⟨k0, c0⟩ := x
    by_cases h1 : kv = k0
    · have : k ≠ k0 := fun e => hk (e.trans h1.symm)
      simp [counter_incr, lookup, h1, this]
    · by_cases h2 : string_lt kv k0 = true
      · simp [counter_incr, lookup, h1, h2, hk]
      · simp only [counter_incr, if_neg h1, if_neg h2, lookup, ih]

theorem lookup_counter_incr (kv k : List Char) (m : List (List Char × Nat)) (h : KeySorted m) :
    lookup k (counter_incr kv m) = lookup k m + (if k = kv then 1 else 0) := by
  by_cases hk : k = kv
  · rw [if_pos hk, hk]; exact lookup_counter_incr_self kv m h
  · rw [if_neg hk, lookup_counter_incr_other kv k m hk]; rfl

theorem counter_incr_pos (kv : List Char) (m : List (List Char × Nat))
    (h : ∀ e ∈ m, 0 < e.2) : ∀ e ∈ counter_incr kv m, 0 < e.2 := by
  induction m with
  | nil =>
    intro e he
    simp only [counter_incr, List.mem_singleton] at he
    rw [he]; exact Nat.one_pos
  | cons x rest ih =>
    obtain ⟨k, c⟩ := x
    intro e he
    simp only [counter_incr] at he
    split_ifs at he with h1 h2
    · rcases List.mem_cons.1 he with h' | h'
      · rw [h']; exact Nat.succ_pos _
      · exact h e (List.mem_cons_of_mem _ h')
    · rcases List.mem_cons.1 he with h' | h'
      · rw [h']; exact Nat.one_pos
      · exact h e h'
    · rcases List.mem_cons.1 he with h' | h'
      · rw [h']; exact h (k, c) (List.mem_cons_self _ _)
      · exact ih (fun e he => h e (List.mem_cons_of_mem _ he)) e h'

theorem lookup_of_mem (m : List (List Char × Nat)) (h : KeySorted m) (k : List Char) (c : Nat)
    (hm : (k, c) ∈ m) : lookup k m = c := by
  induction m with
  | nil => cases hm
  | cons x rest ih =>
    obtain ⟨k0, c0⟩ := x
    unfold KeySorted at h
    rw [List.pairwise_cons] at h
    rcases List.mem_cons.1 hm with h' | h'
    · injection h' with hk hc
      simp [lookup, hk, hc]
    · have hlt : string_lt k0 k = true := h.1 (k, c) h'
      have hne : k ≠ k0 := by
        intro e
        rw [e, string_lt_irrefl] at hlt
        exact Bool.false_ne_true hlt
      simp only [lookup, if_neg hne]
      exact ih h.2 h'

theorem mem_of_lookup (m : List (List Char × Nat)) (k : List Char) (c : Nat)
    (hl : lookup k m = c) (hc : 0 < c) : (k, c) ∈ m := by
  induction m with
  | nil =>
    simp only [lookup] at hl
    omega
  | cons x rest ih =>
    obtain ⟨k0, c0⟩ := x
    simp only [lookup] at hl
    split_ifs at hl with h1
    · rw [h1, hl]; exact List.mem_cons_self _ _
    · exact List.mem_cons_of_mem _ (ih hl)

theorem count_tags_fold (ways : List WayPtr) (m : List (List Char × Nat)) :
    ways.foldl (fun counter way =>
      way.way.tags.foldl (fun counter tag => counter_incr (kv_of tag) counter) counter) m
    = (all_kvs ways).foldl (fun counter kv => counter_incr kv counter) m := by
  induction ways generalizing m with
  | nil => rfl
  | cons w ws ih =>
    simp only [List.foldl_cons, all_kvs, List.foldl_append, List.foldl_map]
    exact ih _

theorem counter_fold_inv (l : List (List Char)) (m : List (List Char × Nat))
    (hs : KeySorted m) (hp : ∀ e ∈ m, 0 < e.2) :
    KeySorted (l.foldl (fun counter kv => counter_incr kv counter) m) ∧
    (∀ e ∈ l.foldl (fun counter kv => counter_incr kv counter) m, 0 < e.2) ∧
    ∀ k, lookup k (l.foldl (fun counter kv => counter_incr kv counter) m)
      = lookup k m + l.count k := by
  induction l generalizing m with
  | nil => exact ⟨hs, hp, fun k => by simp⟩
  | cons x xs ih =>
    simp only [List.foldl_cons]
    obtain ⟨h1, h2, h3⟩ := ih (counter_incr x m) (counter_incr_sorted x m hs)
      (counter_incr_pos x m hp)
    refine ⟨h1, h2, fun k => ?_⟩
    rw [h3 k, lookup_counter_incr x k m hs, List.count_cons]
    by_cases hk : k = x
    · subst hk; simp; omega
    · have : ¬ x = k := fun e => hk e.symm
      simp [hk, this]

theorem count_tags_sorted (ways : List WayPtr) : KeySorted (count_tags ways) := by
  unfold count_tags
  rw [count_tags_fold]
  exact (counter_fold_inv (all_kvs ways) [] List.Pairwise.nil (fun e he => by cases he)).1

theorem mem_count_tags (ways : List WayPtr) (k : List Char) (c : Nat) :
    (k, c) ∈ count_tags ways ↔ 0 < c ∧ (all_kvs ways).count k = c := by
  unfold count_tags
  rw [count_tags_fold]
  obtain ⟨h1, h2, h3⟩ :=
    counter_fold_inv (all_kvs ways) [] List.Pairwise.nil (fun e he => by cases he)
  constructor
  · intro hm
    refine ⟨h2 _ hm, ?_⟩
    have := lookup_of_mem _ h1 k c hm
    rw [h3 k] at this
    simpa [lookup] using this
  · rintro ⟨hc, hk⟩
    apply mem_of_lookup _ k c _ hc
    rw [h3 k]
    simpa [lookup] using hk

theorem mem_add_common_tags (ways : List WayPtr) (hn : 0 < ways.length) (t : Tag) :
    t ∈ add_common_tags ways ↔
      ∃ k, (all_kvs ways).count k = ways.length ∧ tag_of_kv k = t := by
  simp only [add_common_tags, List.mem_map, List.mem_filter, beq_iff_eq]
  constructor
  · rintro ⟨⟨k, c⟩, ⟨hm, hc⟩, ht⟩
    simp only at hc ht
    subst hc
    exact ⟨k, ((mem_count_tags ways k _).1 hm).2, ht⟩
  · rintro ⟨k, hk, ht⟩
    exact ⟨(k, ways.length), ⟨(mem_count_tags ways k _).2 ⟨hn, hk⟩, rfl⟩, ht⟩

/-! ## The encoding `key NUL value` -/

theorem takeWhile_append_stop {α : Type} (p : α → Bool) (l r : List α) (x : α)
    (hl : ∀ a ∈ l, p a = true) (hx : p x = false) :
    (l ++ x :: r).takeWhile p = l := by
  induction l with
  | nil => simp [List.takeWhile, hx]
  | cons a as ih =>
    have ha : p a = true := hl a (List.mem_cons_self _ _)
    simp only [List.cons_append, List.takeWhile_cons, ha, if_true]
    rw [ih (fun b hb => hl b (List.mem_cons_of_mem _ hb))]

theorem takeWhile_all {α : Type} (p : α → Bool) (l : List α) (hl : ∀ a ∈ l, p a = true) :
    l.takeWhile p = l := by
  induction l with
  | nil => rfl
  | cons a as ih =>
    have ha : p a = true := hl a (List.mem_cons_self _ _)
    simp only [List.takeWhile_cons, ha, if_true]
    rw [ih (fun b hb => hl b (List.mem_cons_of_mem _ hb))]

/-- Splitting at the first NUL gives back key and value of a tag whose key
and value are C strings. -/
theorem tag_of_kv_kv_of (t : Tag) (hk : nul_free t.key = true) (hv : nul_free t.value = true) :
    tag_of_kv (kv_of t) = t := by
  obtain ⟨key, value⟩ := t
  simp only [nul_free, List.all_eq_true] at hk hv
  have h1 : c_str (kv_of ⟨key, value⟩) = key := by
    simp only [c_str, kv_of, List.append_assoc, List.singleton_append]
    rw [takeWhile_append_stop _ _ _ _ hk (bne_self_eq_false NUL)]
    rfl
  have h2 : (kv_of ⟨key, value⟩).drop (strlen (kv_of ⟨key, value⟩) + 1) = value.toList := by
    simp only [strlen, h1]
    simp only [kv_of, List.append_assoc, List.singleton_append]
    have : key.length + 1 = (key.toList ++ [NUL]).length := by
      rw [List.length_append, List.length_singleton]; rfl
    rw [show key.toList ++ NUL :: value.toList = (key.toList ++ [NUL]) ++ value.toList by simp,
      this, List.drop_left]
  simp only [tag_of_kv, h1, h2]
  simp only [c_str]
  rw [takeWhile_all _ _ hv]
  rfl

theorem tags_wf_mem (tags : TagList) (h : tags_wf tags = true) (t : Tag) (ht : t ∈ tags) :
    nul_free t.key = true ∧ nul_free t.value = true := by
  simp only [tags_wf, List.all_eq_true, Bool.and_eq_true] at h
  exact h t ht

theorem kv_of_inj (a b : Tag) (ha : nul_free a.key = true ∧ nul_free a.value = true)
    (hb : nul_free b.key = true ∧ nul_free b.value = true) (h : kv_of a = kv_of b) : a = b := by
  rw [← tag_of_kv_kv_of a ha.1 ha.2, ← tag_of_kv_kv_of b hb.1 hb.2, h]

theorem count_map_kv_of (tags : TagList) (h : tags_wf tags = true) (t : Tag)
    (ht : nul_free t.key = true ∧ nul_free t.value = true) :
    (tags.map kv_of).count (kv_of t) = tags.count t := by
  induction tags with
  | nil => rfl
  | cons a as ih =>
    have ha := tags_wf_mem _ h a (List.mem_cons_self _ _)
    have has : tags_wf as = true := by
      simp only [tags_wf, List.all_cons, Bool.and_eq_true] at h ⊢
      exact h.2
    simp only [List.map_cons, List.count_cons, ih has]
    by_cases e : a = t
    · subst e; simp
    · have : ¬ kv_of a = kv_of t := fun e' => e (kv_of_inj a t ha ht e')
      simp [e, this]

theorem mem_all_kvs (ws : List WayPtr) (k : List Char) :
    k ∈ all_kvs ws ↔ ∃ w ∈ ws, ∃ t ∈ w.way.tags, kv_of t = k := by
  induction ws with
  | nil => simp [all_kvs]
  | cons w ws ih =>
    simp only [all_kvs, List.mem_append, List.mem_map, ih, List.mem_cons]
    constructor
    · rintro (⟨t, ht, e⟩ | ⟨w', hw', t, ht, e⟩)
      · exact ⟨w, Or.inl rfl, t, ht, e⟩
      · exact ⟨w', Or.inr hw', t, ht, e⟩
    · rintro ⟨w', hw' | hw', t, ht, e⟩
      · subst hw'; exact Or.inl ⟨t, ht, e⟩
      · exact Or.inr ⟨w', hw', t, ht, e⟩

/-- When no way lists a tag twice, a tag is counted once per way carrying it. -/
theorem count_all_kvs (ws : List WayPtr) (hwf : ∀ w ∈ ws, tags_wf w.way.tags = true)
    (hnd : ∀ w ∈ ws, w.way.tags.Nodup) (t : Tag)
    (ht : nul_free t.key = true ∧ nul_free t.value = true) :
    (all_kvs ws).count (kv_of t) ≤ ws.length ∧
    ((all_kvs ws).count (kv_of t) = ws.length ↔ ∀ w ∈ ws, t ∈ w.way.tags) := by
  induction ws with
  | nil => simp [all_kvs]
  | cons w ws ih =>
    obtain ⟨ih1, ih2⟩ := ih (fun w' hw' => hwf w' (List.mem_cons_of_mem _ hw'))
      (fun w' hw' => hnd w' (List.mem_cons_of_mem _ hw'))
    have hw := hwf w (List.mem_cons_self _ _)
    have hn := hnd w (List.mem_cons_self _ _)
    simp only [all_kvs, List.count_append, count_map_kv_of _ hw t ht, List.length_cons,
      List.forall_mem_cons]
    by_cases hm : t ∈ w.way.tags
    · rw [List.count_eq_one_of_mem hn hm]
      constructor
      · omega
      · constructor
        · intro h
          exact ⟨hm, ih2.1 (by omega)⟩
        · intro h
          have := ih2.2 h.2
          omega
    · rw [List.count_eq_zero_of_not_mem hm]
      constructor
      · omega
      · constructor
        · intro h; omega
        · intro h; exact absurd h.1 hm

/-- The common tags of ways that list no tag twice: the tags carried by every
way. -/
theorem mem_add_common_tags_nodup (ws : List WayPtr) (hn : 0 < ws.length)
    (hwf : ∀ w ∈ ws, tags_wf w.way.tags = true) (hnd : ∀ w ∈ ws, w.way.tags.Nodup) (t : Tag) :
    t ∈ add_common_tags ws ↔ ∀ w ∈ ws, t ∈ w.way.tags := by
  rw [mem_add_common_tags ws hn]
  constructor
  · rintro ⟨k, hk, hkt⟩
    have hpos : 0 < (all_kvs ws).count k := by omega
    obtain ⟨w', hw', t', ht', e⟩ := (mem_all_kvs ws k).1 (List.count_pos_iff.1 hpos)
    have hwf' := tags_wf_mem _ (hwf w' hw') t' ht'
    have : t' = t := by
      rw [← hkt, ← e, tag_of_kv_kv_of t' hwf'.1 hwf'.2]
    subst this
    rw [← e] at hk
    exact (count_all_kvs ws hwf hnd t' hwf').2.1 hk
  · intro h
    obtain ⟨w0, hw0⟩ := List.exists_mem_of_length_pos hn
    have htw := tags_wf_mem _ (hwf w0 hw0) t (h w0 hw0)
    exact ⟨kv_of t, (count_all_kvs ws hwf hnd t htw).2.2 h, tag_of_kv_kv_of t htw.1 htw.2⟩

/-- No tag is emitted twice by `add_common_tags`. -/
theorem add_common_tags_nodup (ws : List WayPtr) (hn : 0 < ws.length)
    (hwf : ∀ w ∈ ws, tags_wf w.way.tags = true) : (add_common_tags ws).Nodup := by
  simp only [add_common_tags]
  have hs := count_tags_sorted ws
  have hnd : (count_tags ws).Nodup := by
    unfold KeySorted at hs
    refine List.Pairwise.imp ?_ hs
    intro a b hab e
    rw [e, string_lt_irrefl] at hab
    exact Bool.false_ne_true hab
  refine List.Nodup.map_on ?_ (hnd.filter _)
  intro x hx y hy hxy
  simp only [List.mem_filter, beq_iff_eq] at hx hy
  obtain ⟨k1, c1⟩ := x
  obtain ⟨k2, c2⟩ := y
  simp only at hx hy hxy
  have h1 := (mem_count_tags ws k1 c1).1 hx.1
  have h2 := (mem_count_tags ws k2 c2).1 hy.1
  obtain ⟨w1, hw1, t1, ht1, e1⟩ :=
    (mem_all_kvs ws k1).1 (List.count_pos_iff.1 (by omega))
  obtain ⟨w2, hw2, t2, ht2, e2⟩ :=
    (mem_all_kvs ws k2).1 (List.count_pos_iff.1 (by omega))
  have f1 := tags_wf_mem _ (hwf w1 hw1) t1 ht1
  have f2 := tags_wf_mem _ (hwf w2 hw2) t2 ht2
  have : t1 = t2 := by
    rw [← tag_of_kv_kv_of t1 f1.1 f1.2, ← tag_of_kv_kv_of t2 f2.1 f2.2, e1, e2, hxy]
  have hk : k1 = k2 := by rw [← e1, ← e2, this]
  have hc : c1 = c2 := by rw [hx.2, hy.2]
  rw [hk, hc]

/-- The fallback to the outer ways, for ways that list no tag twice: the tags
carried by every way, and no more of them than any way has. -/
theorem tags_from_ways_spec (ws : List WayPtr) (hn : 0 < ws.length)
    (hwf : ∀ w ∈ ws, tags_wf w.way.tags = true) (hnd : ∀ w ∈ ws, w.way.tags.Nodup) :
    (∀ t, t ∈ tags_from_ways ws ↔ ∀ w ∈ ws, t ∈ w.way.tags) ∧
    (∀ w ∈ ws, (tags_from_ways ws).length ≤ w.way.tags.length) := by
  have key : (∀ t, t ∈ add_common_tags ws ↔ ∀ w ∈ ws, t ∈ w.way.tags) ∧
      (∀ w ∈ ws, (add_common_tags ws).length ≤ w.way.tags.length) := by
    refine ⟨mem_add_common_tags_nodup ws hn hwf hnd, fun w hw => ?_⟩
    apply List.Subperm.length_le
    apply List.subperm_of_subset (add_common_tags_nodup ws hn hwf)
    intro t ht
    exact (mem_add_common_tags_nodup ws hn hwf hnd t).1 ht w hw
  match ws, hn, hwf, hnd, key with
  | [p], _, _, _, _ =>
    simp [tags_from_ways]
  | [], h, _, _, _ => exact absurd h (by simp)
  | _ :: _ :: _, _, _, _, key => exact key

/-! ## The filter and the inner-ring comparison -/

/-- The filter lets a tag through iff its key is not in the ignore-set. -/
theorem filter_iff (t : Tag) : filter t = true ↔ t.key ∉ ignored_keys := by
  simp only [filter, MPFilter, KeyFilter.add, KeyFilter.apply, List.nil_append,
    List.cons_append, ignored_keys, List.mem_cons, List.mem_singleton, List.find?_cons,
    List.find?_nil, List.not_mem_nil, or_false, not_or]
  by_cases h1 : t.key = "type"
  · simp [h1]
  by_cases h2 : t.key = "created_by"
  · simp [h2]
  by_cases h3 : t.key = "source"
  · simp [h3]
  by_cases h4 : t.key = "note"
  · simp [h4]
  by_cases h5 : t.key = "test:id"
  · simp [h5]
  by_cases h6 : t.key = "test:section"
  · simp [h6]
  have e1 : ("type" == t.key) = false := by simpa using fun e => h1 e.symm
  have e2 : ("created_by" == t.key) = false := by simpa using fun e => h2 e.symm
  have e3 : ("source" == t.key) = false := by simpa using fun e => h3 e.symm
  have e4 : ("note" == t.key) = false := by simpa using fun e => h4 e.symm
  have e5 : ("test:id" == t.key) = false := by simpa using fun e => h5 e.symm
  have e6 : ("test:section" == t.key) = false := by simpa using fun e => h6 e.symm
  simp [e1, e2, e3, e4, e5, e6, h1, h2, h3, h4, h5, h6]

theorem std_equal_same_length (b : Bool) (xs ys : List Tag) (hlen : xs.length = ys.length) :
    std_equal b xs ys = true ↔ xs = ys := by
  induction xs generalizing ys with
  | nil =>
    cases ys with
    | nil => simp [std_equal]
    | cons y ys => simp at hlen
  | cons x xs ih =>
    cases ys with
    | nil => simp at hlen
    | cons y ys =>
      simp only [List.length_cons, Nat.add_right_cancel_iff] at hlen
      simp only [std_equal, Bool.and_eq_true, beq_iff_eq, ih ys hlen, List.cons.injEq]

/-- The condition of line 346, whatever reading past the end of the area's
tags yields, holds iff the two filtered tag sequences differ. -/
theorem test_iff_ne (b : Bool) (way_tags area_tags : TagList) :
    (!std_equal b (way_tags.filter filter) (area_tags.filter filter) ||
      way_tags.countP filter != (area_tags.filter filter).length) = true ↔
    way_tags.filter filter ≠ area_tags.filter filter := by
  rw [List.countP_eq_length_filter]
  by_cases hlen : (way_tags.filter filter).length = (area_tags.filter filter).length
  · have := std_equal_same_length b _ _ hlen
    simp only [Bool.or_eq_true, Bool.not_eq_true', bne_iff_ne, ne_eq, hlen, not_true_eq_false,
      or_false]
    rw [← this]
    simp
  · have hne : way_tags.filter filter ≠ area_tags.filter filter := fun e => hlen (by rw [e])
    simp [hlen, hne]

/-- What is read past the end of the area's tags does not change the
condition of line 346. -/
theorem test_past_end_irrelevant (b : Bool) (way_tags area_tags : TagList) :
    (!std_equal b (way_tags.filter filter) (area_tags.filter filter) ||
      way_tags.countP filter != (area_tags.filter filter).length) =
    tags_differ way_tags area_tags := by
  have h1 := test_iff_ne b way_tags area_tags
  have h2 := test_iff_ne false way_tags area_tags
  unfold tags_differ
  simp only []
  rw [Bool.eq_iff_iff, h1, h2]

theorem tags_differ_iff (way_tags area_tags : TagList) :
    tags_differ way_tags area_tags = true ↔
      way_tags.filter filter ≠ area_tags.filter filter :=
  test_iff_ne false way_tags area_tags

/-! ## The inner-ring check on one member and on all -/

theorem filter_eq_non_ignored (tags : TagList) : tags.filter filter = non_ignored tags := by
  unfold non_ignored
  congr 1
  funext t
  rw [Bool.eq_iff_iff, filter_iff, decide_eq_true_iff]

theorem countP_filter_eq (tags : TagList) :
    tags.countP filter = (non_ignored tags).length := by
  rw [List.countP_eq_length_filter, filter_eq_non_ignored]

/-- The lambda of lines 336-357 on one member: an eligible member is counted
when its non-ignored tags are, in order, the area's, and listed otherwise;
any other member changes nothing. -/
theorem inner_ring_check_eq (area_tags : TagList) (acc : Stats × List WayPtr)
    (member : RelationMember) (way : WayPtr) :
    inner_ring_check area_tags acc member way =
      if eligible_inner member way then
        if non_ignored way.way.tags = non_ignored area_tags then
          ({ acc.1 with inner_with_same_tags := acc.1.inner_with_same_tags + 1 }, acc.2)
        else (acc.1, acc.2 ++ [way])
      else acc := by
  have hd := tags_differ_iff way.way.tags area_tags
  rw [filter_eq_non_ignored, filter_eq_non_ignored] at hd
  have hlen : way.way.tags.length > 0 ∨ ¬ (way.way.tags.countP filter > 0) := by
    by_cases h : way.way.tags.countP filter > 0
    · left
      exact lt_of_lt_of_le h (List.countP_le_length _)
    · right; exact h
  have hcnt : way.way.tags.countP filter > 0 ↔ non_ignored way.way.tags ≠ [] := by
    rw [countP_filter_eq, gt_iff_lt, List.length_pos]
  unfold inner_ring_check eligible_inner
  by_cases h1 : member.role = "inner"
  · by_cases h2 : way.way.nodes.isEmpty = true
    · simp [h1, h2]
    · by_cases h3 : is_closed way.way = true
      · by_cases h4 : way.way.tags.countP filter > 0
        · have h5 : way.way.tags.length > 0 := by
            rcases hlen with h | h
            · exact h
            · exact absurd h4 h
          have h6 := hcnt.1 h4
          by_cases h7 : non_ignored way.way.tags = non_ignored area_tags
          · have h8 : tags_differ way.way.tags area_tags = false := by
              cases hb : tags_differ way.way.tags area_tags
              · rfl
              · exact absurd h7 (hd.1 hb)
            have h9 : non_ignored area_tags ≠ [] := h7 ▸ h6
            simp [h1, h2, h3, h4, h5, h7, h8, h9]
          · have h8 : tags_differ way.way.tags area_tags = true := hd.2 h7
            simp [h1, h2, h3, h4, h5, h6, h7, h8]
        · have h6 : non_ignored way.way.tags = [] := by
            by_contra hne
            exact h4 (hcnt.2 hne)
          simp [h1, h2, h3, h4, h6]
      · simp [h1, h2, h3]
  · simp [h1]

theorem inner_ring_check_fold (area_tags : TagList) (l : List (RelationMember × WayPtr))
    (acc : Stats × List WayPtr) :
    l.foldl (fun s mw => inner_ring_check area_tags s mw.1 mw.2) acc =
      ({ acc.1 with inner_with_same_tags := acc.1.inner_with_same_tags +
          (l.filter (fun mw => eligible_inner mw.1 mw.2 &&
            decide (non_ignored mw.2.way.tags = non_ignored area_tags))).length },
        acc.2 ++ (l.filter (fun mw => eligible_inner mw.1 mw.2 &&
            decide (non_ignored mw.2.way.tags ≠ non_ignored area_tags))).map Prod.snd) := by
  induction l generalizing acc with
  | nil => simp
  | cons x xs ih =>
    rw [List.foldl_cons, ih, inner_ring_check_eq]
    by_cases h1 : eligible_inner x.1 x.2 = true
    · by_cases h2 : non_ignored x.2.way.tags = non_ignored area_tags
      · simp [h1, h2, List.filter_cons, Nat.add_assoc, Nat.add_comm 1]
      · simp [h1, h2, List.filter_cons]
    · simp [h1, List.filter_cons]

/-! ## What a call appends to the buffer -/

theorem has_tag_iff (tags : TagList) (key value : String) :
    has_tag tags key value = true ↔ (⟨key, value⟩ : Tag) ∈ tags := by
  simp only [has_tag, List.any_eq_true, Bool.and_eq_true, beq_iff_eq]
  constructor
  · rintro ⟨t, ht, hk, hv⟩
    obtain ⟨k, v⟩ := t
    simp only at hk hv
    subst hk hv
    exact ht
  · intro h
    exact ⟨_, h, rfl, rfl⟩

theorem create_area_way_area (cfg : Config) (env : Collaborators) (st : Stats) (way : Way) :
    (create_area_way cfg env st way).1 = ((env.create_rings_way way).okay || cfg.create_empty_areas) ∧
    (create_area_way cfg env st way).2.2.from_way = true ∧
    (create_area_way cfg env st way).2.2.orig_id = way.id ∧
    ((create_area_way cfg env st way).1 = true →
      (create_area_way cfg env st way).2.2.tags = way.tags) := by
  unfold create_area_way
  refine ⟨rfl, ?_, ?_, ?_⟩
  · simp only []
    split_ifs <;> rfl
  · simp only []
    split_ifs <;> rfl
  · intro h
    simp only [] at h ⊢
    simp only [h, if_true]
    split_ifs <;> rfl

/-- Way assembly leaves the buffer alone or appends one area made from a way. -/
theorem assemble_way_buffer (cfg : Config) (env : Collaborators) (st : Stats) (buf : Buffer)
    (way : Way) :
    (assemble_way cfg env st buf way).2.2 = buf ∨
    ∃ a, (assemble_way cfg env st buf way).2.2 = buf ++ [a] ∧ a.from_way = true := by
  unfold assemble_way
  by_cases h1 : (!cfg.create_way_polygons) = true
  · left; rw [if_pos h1]
  rw [if_neg h1]
  by_cases h2 : has_tag way.tags "area" "no" = true
  · left; rw [if_pos h2]
  rw [if_neg h2]
  by_cases h3 : way.nodes.length < 2
  · left; rw [if_pos h3]
  rw [if_neg h3]
  simp only []
  by_cases h4 : (!cfg.ignore_invalid_locations &&
      decide ((count_way env st way).invalid_locations > 0)) = true
  · left; rw [if_pos h4]
  rw [if_neg h4]
  by_cases h5 : (create_area_way cfg env (count_way env st way) way).1 = true
  · right
    rw [if_pos h5]
    exact ⟨_, rfl, (create_area_way_area cfg env _ way).2.1⟩
  · left; rw [if_neg h5]

/-- The child loop only appends areas made from ways. -/
theorem build_inner_areas_buffer (cfg : Config) (env : Collaborators) (ways : List WayPtr)
    (acc : Bool × Stats × Buffer) :
    ∃ rest, (build_inner_areas cfg env ways acc).2.2 = acc.2.2 ++ rest ∧
      ∀ b ∈ rest, b.from_way = true := by
  induction ways generalizing acc with
  | nil => exact ⟨[], by simp [build_inner_areas], fun b hb => by cases hb⟩
  | cons w ws ih =>
    unfold build_inner_areas at ih ⊢
    rw [List.foldl_cons]
    obtain ⟨rest, h1, h2⟩ := ih
      (if !(assemble_way cfg env Stats.zero acc.2.2 w.way).1 then false else acc.1,
        acc.2.1.add (assemble_way cfg env Stats.zero acc.2.2 w.way).2.1,
        (assemble_way cfg env Stats.zero acc.2.2 w.way).2.2)
    rw [h1]
    rcases assemble_way_buffer cfg env Stats.zero acc.2.2 w.way with h | ⟨a, h, ha⟩
    · exact ⟨rest, by simp only [h], h2⟩
    · refine ⟨a :: rest, by simp only [h, List.append_assoc, List.singleton_append], ?_⟩
      intro b hb
      rcases List.mem_cons.1 hb with e | e
      · rw [e]; exact ha
      · exact h2 b e

/-! ## The main path of the two entry points -/

/-- Way assembly past its guards: the result of `create_area` decides. -/
theorem assemble_way_main (cfg : Config) (env : Collaborators) (st : Stats) (buf : Buffer)
    (way : Way) (hpoly : cfg.create_way_polygons = true)
    (harea : (⟨"area", "no"⟩ : Tag) ∉ way.tags) (hnodes : 2 ≤ way.nodes.length)
    (hloc : cfg.ignore_invalid_locations = true ∨
      (env.extract_segments_from_way way).invalid_locations = 0) :
    assemble_way cfg env st buf way =
      ((create_area_way cfg env (count_way env st way) way).1,
        (create_area_way cfg env (count_way env st way) way).2.1,
        if (create_area_way cfg env (count_way env st way) way).1 = true then
          buf ++ [(create_area_way cfg env (count_way env st way) way).2.2]
        else buf) := by
  unfold assemble_way
  have h1 : ¬ ((!cfg.create_way_polygons) = true) := by simp [hpoly]
  have h2 : ¬ (has_tag way.tags "area" "no" = true) := by
    rw [has_tag_iff]; exact harea
  have h3 : ¬ (way.nodes.length < 2) := by omega
  have h4 : ¬ ((!cfg.ignore_invalid_locations &&
      decide ((count_way env st way).invalid_locations > 0)) = true) := by
    rcases hloc with h | h
    · simp [h]
    · simp [count_way, h]
  rw [if_neg h1, if_neg h2, if_neg h3]
  simp only []
  rw [if_neg h4]
  by_cases h5 : (create_area_way cfg env (count_way env st way) way).1 = true
  · rw [if_pos h5, if_pos h5]
  · rw [if_neg h5, if_neg h5]

/-- Relation assembly past its guards: `create_area`, the commit decision, the
inner-ring check and the child loop. -/
theorem assemble_relation_main (cfg : Config) (env : Collaborators) (st : Stats)
    (buf : Buffer) (relation : Relation) (members : List WayPtr)
    (hmem : relation.members ≠ [])
    (hloc : cfg.ignore_invalid_locations = true ∨
      (env.extract_segments_from_ways relation members).invalid_locations = 0) :
    assemble_relation cfg env st buf relation members =
      build_inner_areas cfg env
        (reclassify (counters_at_commit cfg env st relation members) relation members
          (area_built cfg env st relation members).tags).2
        ((env.create_rings_relation relation members).okay || cfg.create_empty_areas,
          (reclassify (counters_at_commit cfg env st relation members) relation members
            (area_built cfg env st relation members).tags).1,
          if commits cfg (counters_at_commit cfg env st relation members)
              ((env.create_rings_relation relation members).okay || cfg.create_empty_areas)
              = true then
            buf ++ [area_built cfg env st relation members]
          else buf) := by
  unfold assemble_relation
  have h1 : ¬ (relation.members.isEmpty = true) := by
    rw [List.isEmpty_iff]; exact hmem
  have h2 : ¬ ((!cfg.ignore_invalid_locations &&
      decide ((count_extraction env st relation members).invalid_locations > 0)) = true) := by
    rcases hloc with h | h
    · simp [h]
    · simp [count_extraction, h]
  rw [if_neg h1]
  simp only []
  rw [if_neg h2]
  rfl

/-- What `create_area` leaves in relation assembly when tags are added: the
no_tags_on_relation counter and the area. -/
theorem create_area_relation_tagged (cfg : Config) (env : Collaborators) (st : Stats)
    (relation : Relation) (members : List WayPtr)
    (hok : ((env.create_rings_relation relation members).okay || cfg.create_empty_areas) = true) :
    (create_area_relation cfg env st relation members).2.1.no_tags_on_relation =
      st.no_tags_on_relation + (if non_ignored relation.tags = [] then 1 else 0) ∧
    (create_area_relation cfg env st relation members).2.2.from_way = false ∧
    (create_area_relation cfg env st relation members).2.2.orig_id = relation.id ∧
    (non_ignored relation.tags ≠ [] →
      (create_area_relation cfg env st relation members).2.2.tags =
        if cfg.keep_type_tag = true then relation.tags
        else copy_tags_without_type relation.tags) := by
  have hcnt : relation.tags.countP filter > 0 ↔ non_ignored relation.tags ≠ [] := by
    rw [countP_filter_eq, gt_iff_lt, List.length_pos]
  unfold create_area_relation
  simp only []
  rw [if_pos hok]
  unfold add_tags_to_area_relation
  simp only []
  by_cases hc : relation.tags.countP filter > 0
  · have hne := hcnt.1 hc
    rw [if_pos hc, if_neg hne]
    by_cases hk : cfg.keep_type_tag = true
    · rw [if_pos hk]
      refine ⟨rfl, ?_, ?_, fun _ => ?_⟩ <;> split_ifs <;> rfl
    · rw [if_neg hk]
      refine ⟨rfl, ?_, ?_, fun _ => ?_⟩ <;> split_ifs <;> rfl
  · have he : non_ignored relation.tags = [] := by
      by_contra hne
      exact hc (hcnt.2 hne)
    rw [if_neg hc, if_pos he]
    refine ⟨rfl, ?_, ?_, fun h => absurd he h⟩ <;> split_ifs <;> rfl

/-! ## C1: the tags taken from the outer ways -/

/-- C1, as amended: when relation-tag selection falls back to the outer ways
W1..Wn (n >= 1) and no way lists the same (key,value) pair twice, a pair is in
the area's tags iff it occurs in the tag list of every Wi, without any
ignore-set filtering, and the area has no more tags than any Wi. -/
theorem fallback_tags_are_common_tags (cfg : Config) (st : Stats) (rings : List Ring)
    (builder : Area) (relation : Relation)
    (hcount : relation.tags.countP filter = 0)
    (hn : 0 < (outer_ways rings).length)
    (hwf : ∀ w ∈ outer_ways rings, tags_wf w.way.tags = true)
    (hnd : ∀ w ∈ outer_ways rings, w.way.tags.Nodup) :
    (∀ t, t ∈ (add_tags_to_area_relation cfg st rings builder relation).2.tags ↔
      ∀ w ∈ outer_ways rings, t ∈ w.way.tags) ∧
    (∀ w ∈ outer_ways rings,
      (add_tags_to_area_relation cfg st rings builder relation).2.tags.length
        ≤ w.way.tags.length) := by
  have h : (add_tags_to_area_relation cfg st rings builder relation).2.tags
      = tags_from_ways (outer_ways rings) := by
    simp [add_tags_to_area_relation, hcount]
  rw [h]
  exact tags_from_ways_spec (outer_ways rings) hn hwf hnd

/-- C1, witness: two outer ways both tagged landuse=forest, source=x; the pair
source=x is kept although `source` is in the ignore-set. -/
theorem fallback_tags_are_common_tags_witness :
    untagged_relation.tags.countP filter = 0 ∧
    0 < (outer_ways forest_rings).length ∧
    (∀ w ∈ outer_ways forest_rings, tags_wf w.way.tags = true) ∧
    (∀ w ∈ outer_ways forest_rings, w.way.tags.Nodup) ∧
    (⟨"source", "x"⟩ : Tag) ∈
      (add_tags_to_area_relation cfg_new_style Stats.zero forest_rings
        (initialize_from_relation untagged_relation) untagged_relation).2.tags :=
  ⟨by decide, by decide, by decide, by decide,
    ((fallback_tags_are_common_tags cfg_new_style Stats.zero forest_rings
      (initialize_from_relation untagged_relation) untagged_relation
      (by decide) (by decide) (by decide) (by decide)).1 ⟨"source", "x"⟩).2 (by decide)⟩

/-- C1, counterexample: the first of two outer ways lists natural=water and
name=Lake twice each, the second carries landuse=forest only. Both pairs are
counted twice, as often as there are ways, and are emitted: natural=water is in
the area's tags without being on the second way, and the area has two tags
while the second way has one. -/
theorem fallback_tags_counterexample :
    ¬ (∀ t, t ∈ (add_tags_to_area_relation cfg_new_style Stats.zero doubled_rings
          (initialize_from_relation untagged_relation) untagged_relation).2.tags ↔
        ∀ w ∈ outer_ways doubled_rings, t ∈ w.way.tags) ∧
    ¬ (∀ w ∈ outer_ways doubled_rings,
        (add_tags_to_area_relation cfg_new_style Stats.zero doubled_rings
          (initialize_from_relation untagged_relation) untagged_relation).2.tags.length
          ≤ w.way.tags.length) := by
  constructor
  · intro h
    exact absurd ((h ⟨"natural", "water"⟩).1 (by decide)) (by decide)
  · decide

/-! ## C2: the inner-ring check -/

/-- C2, as amended: in relation assembly with no wrong-role member, the
eligible members (role exactly "inner", way non-empty, closed, with a tag
outside the ignore-set) are split by comparing sequences: a member is counted
in inner_with_same_tags iff the sequence of its non-ignored tags, in stored
order, equals the sequence of the area's non-ignored tags, and is otherwise
added, in member order, to the list of ways to re-assemble. -/
theorem reclassify_compares_sequences (st : Stats) (relation : Relation)
    (members : List WayPtr) (area_tags : TagList) (hwr : st.wrong_role = 0) :
    reclassify st relation members area_tags =
      ({ st with inner_with_same_tags := st.inner_with_same_tags +
          ((relation.members.zip members).filter (fun mw => eligible_inner mw.1 mw.2 &&
            decide (non_ignored mw.2.way.tags = non_ignored area_tags))).length },
        ((relation.members.zip members).filter (fun mw => eligible_inner mw.1 mw.2 &&
            decide (non_ignored mw.2.way.tags ≠ non_ignored area_tags))).map Prod.snd) := by
  unfold reclassify for_each_member
  rw [inner_ring_check_fold]
  simp [hwr]

/-- C2, witness: the inner way of the lake carries the area's tags in the
area's order, with an ignored tag in between, and is counted. -/
theorem reclassify_compares_sequences_witness :
    Stats.zero.wrong_role = 0 ∧
    reclassify Stats.zero lake_relation [lake_outer, island_same]
        [⟨"name", "Lake"⟩, ⟨"natural", "water"⟩] =
      ({ Stats.zero with inner_with_same_tags := 1 }, []) :=
  ⟨rfl, (reclassify_compares_sequences Stats.zero lake_relation [lake_outer, island_same]
    [⟨"name", "Lake"⟩, ⟨"natural", "water"⟩] rfl).trans (by decide)⟩

/-- C2, counterexample: the relation is tagged name=Lake, natural=water and its
inner way natural=water, name=Lake. The area's tags are name=Lake,
natural=water; the way's non-ignored tags are the same multiset, yet the way
is not counted in inner_with_same_tags: it is listed for re-assembly and a
second area is built from it. -/
theorem reordered_tags_counterexample :
    (create_area_relation cfg_new_style env_ok
        (count_members (count_extraction env_ok Stats.zero lake_relation
          [lake_outer, island_reordered]) [lake_outer, island_reordered])
        lake_relation [lake_outer, island_reordered]).2.2.tags
      = [⟨"name", "Lake"⟩, ⟨"natural", "water"⟩] ∧
    (non_ignored island_reordered.way.tags).Perm
      (non_ignored [⟨"name", "Lake"⟩, ⟨"natural", "water"⟩]) ∧
    eligible_inner ⟨"inner"⟩ island_reordered = true ∧
    inner_ring_check [⟨"name", "Lake"⟩, ⟨"natural", "water"⟩] (Stats.zero, []) ⟨"inner"⟩
        island_reordered = (Stats.zero, [island_reordered]) ∧
    (assemble_relation cfg_new_style env_ok Stats.zero [] lake_relation
        [lake_outer, island_reordered]).2.1.inner_with_same_tags = 0 ∧
    (assemble_relation cfg_new_style env_ok Stats.zero [] lake_relation
        [lake_outer, island_reordered]).2.1.from_ways = 1 ∧
    ((assemble_relation cfg_new_style env_ok Stats.zero [] lake_relation
        [lake_outer, island_reordered]).2.2.map (fun a => (a.from_way, a.orig_id)))
      = [(false, 5), (true, 21)] := by
  decide

/-! ## C3: new-style gating on a fresh assembler -/

/-- C3: on a fresh assembler with create_new_style_polygons set and
create_old_style_polygons unset, for a relation with at least one member,
acceptable locations and successful ring building: if the relation has a tag
outside the ignore-set, its area, carrying the relation's tags, is committed
right after what the buffer held; if it has none (fallback to the outer ways),
the call appends nothing but areas made from ways, so the relation's area is
rolled back. -/
theorem new_style_commits_iff_relation_tagged (cfg : Config) (env : Collaborators)
    (buf : Buffer) (relation : Relation) (members : List WayPtr)
    (hnew : cfg.create_new_style_polygons = true)
    (hold : cfg.create_old_style_polygons = false)
    (hmem : relation.members ≠ [])
    (hloc : cfg.ignore_invalid_locations = true ∨
      (env.extract_segments_from_ways relation members).invalid_locations = 0)
    (hring : (env.create_rings_relation relation members).okay = true) :
    (non_ignored relation.tags ≠ [] →
      ∃ a rest, (assemble_relation cfg env Stats.zero buf relation members).2.2
          = buf ++ a :: rest ∧
        a.from_way = false ∧ a.orig_id = relation.id ∧
        a.tags = (if cfg.keep_type_tag = true then relation.tags
          else copy_tags_without_type relation.tags) ∧
        ∀ b ∈ rest, b.from_way = true) ∧
    (non_ignored relation.tags = [] →
      ∃ rest, (assemble_relation cfg env Stats.zero buf relation members).2.2 = buf ++ rest ∧
        ∀ b ∈ rest, b.from_way = true) := by
  have hok : ((env.create_rings_relation relation members).okay || cfg.create_empty_areas)
      = true := by simp [hring]
  obtain ⟨hn, hf, hid, htags⟩ := create_area_relation_tagged cfg env
    (count_members (count_extraction env Stats.zero relation members) members)
    relation members hok
  have hn0 : (count_members (count_extraction env Stats.zero relation members)
      members).no_tags_on_relation = 0 := by
    unfold count_members count_extraction
    simp only []
    split_ifs <;> rfl
  rw [hn0] at hn
  rw [assemble_relation_main cfg env Stats.zero buf relation members hmem hloc, hok]
  constructor
  · intro hne
    have hc : commits cfg (counters_at_commit cfg env Stats.zero relation members) true
        = true := by
      have : (counters_at_commit cfg env Stats.zero relation members).no_tags_on_relation
          = 0 := by
        unfold counters_at_commit
        rw [hn, if_neg hne]
      simp [commits, hnew, this]
    rw [if_pos hc]
    obtain ⟨rest, h1, h2⟩ := build_inner_areas_buffer cfg env
      (reclassify (counters_at_commit cfg env Stats.zero relation members) relation members
        (area_built cfg env Stats.zero relation members).tags).2
      (true, (reclassify (counters_at_commit cfg env Stats.zero relation members) relation
        members (area_built cfg env Stats.zero relation members).tags).1,
        buf ++ [area_built cfg env Stats.zero relation members])
    refine ⟨area_built cfg env Stats.zero relation members, rest, ?_, hf, hid, htags hne, h2⟩
    rw [h1]
    simp
  · intro he
    have hc : ¬ (commits cfg (counters_at_commit cfg env Stats.zero relation members) true
        = true) := by
      have : (counters_at_commit cfg env Stats.zero relation members).no_tags_on_relation
          = 1 := by
        unfold counters_at_commit
        rw [hn, if_pos he]
      simp [commits, hold, this]
    rw [if_neg hc]
    exact build_inner_areas_buffer cfg env _ _

/-- C3, witness: the lake relation, tagged name=Lake and natural=water, with
its two ways: the area committed first comes from the relation. -/
theorem new_style_commits_iff_relation_tagged_witness :
    cfg_new_style.create_new_style_polygons = true ∧
    cfg_new_style.create_old_style_polygons = false ∧
    lake_relation.members ≠ [] ∧
    (env_ok.create_rings_relation lake_relation [lake_outer, island_same]).okay = true ∧
    non_ignored lake_relation.tags ≠ [] ∧
    ∃ a rest, (assemble_relation cfg_new_style env_ok Stats.zero [] lake_relation
          [lake_outer, island_same]).2.2 = [] ++ a :: rest ∧
        a.from_way = false ∧ a.orig_id = lake_relation.id ∧
        a.tags = (if cfg_new_style.keep_type_tag = true then lake_relation.tags
          else copy_tags_without_type lake_relation.tags) ∧
        ∀ b ∈ rest, b.from_way = true :=
  ⟨rfl, rfl, by decide, rfl, by decide,
    (new_style_commits_iff_relation_tagged cfg_new_style env_ok [] lake_relation
      [lake_outer, island_same] rfl rfl (by decide) (Or.inr rfl) rfl).1 (by decide)⟩

/-! ## C4: the commit decision of way assembly -/

/-- C4: for a way that reaches ring building (create_way_polygons set, not
tagged area=no, at least 2 nodes, invalid locations absent or tolerated), the
returned value is `ring building succeeded or create_empty_areas`; when it is
true exactly one area is committed, made from the way and carrying exactly the
way's tags; when it is false the buffer is unchanged (rollback). -/
theorem way_area_committed_iff_okay (cfg : Config) (env : Collaborators) (st : Stats)
    (buf : Buffer) (way : Way) (hpoly : cfg.create_way_polygons = true)
    (harea : (⟨"area", "no"⟩ : Tag) ∉ way.tags) (hnodes : 2 ≤ way.nodes.length)
    (hloc : cfg.ignore_invalid_locations = true ∨
      (env.extract_segments_from_way way).invalid_locations = 0) :
    (assemble_way cfg env st buf way).1
      = ((env.create_rings_way way).okay || cfg.create_empty_areas) ∧
    (((env.create_rings_way way).okay || cfg.create_empty_areas) = true →
      ∃ a, (assemble_way cfg env st buf way).2.2 = buf ++ [a] ∧
        a.from_way = true ∧ a.orig_id = way.id ∧ a.tags = way.tags) ∧
    (((env.create_rings_way way).okay || cfg.create_empty_areas) = false →
      (assemble_way cfg env st buf way).2.2 = buf) := by
  obtain ⟨h1, h2, h3, h4⟩ := create_area_way_area cfg env (count_way env st way) way
  rw [assemble_way_main cfg env st buf way hpoly harea hnodes hloc]
  refine ⟨h1, fun hok => ?_, fun hno => ?_⟩
  · rw [← h1] at hok
    exact ⟨_, by simp only [hok, if_true], h2, h3, h4 hok⟩
  · rw [← h1] at hno
    simp only [hno, Bool.false_eq_true, if_false]

/-- C4, witness (scenario A of §8): the closed way 1, 2, 3, 1 tagged
highway=residential, with successful ring building, returns true and commits
one area tagged highway=residential. -/
theorem way_area_committed_iff_okay_witness :
    cfg_new_style.create_way_polygons = true ∧
    (⟨"area", "no"⟩ : Tag) ∉ [(⟨"highway", "residential"⟩ : Tag)] ∧
    2 ≤ closed_nodes.length ∧
    (assemble_way cfg_new_style env_ok Stats.zero []
      ⟨1, closed_nodes, [⟨"highway", "residential"⟩]⟩).1 = true ∧
    ∃ a, (assemble_way cfg_new_style env_ok Stats.zero []
        ⟨1, closed_nodes, [⟨"highway", "residential"⟩]⟩).2.2 = [] ++ [a] ∧
      a.from_way = true ∧ a.orig_id = 1 ∧ a.tags = [⟨"highway", "residential"⟩] :=
  ⟨rfl, by decide, by decide,
    (way_area_committed_iff_okay cfg_new_style env_ok Stats.zero []
      ⟨1, closed_nodes, [⟨"highway", "residential"⟩]⟩ rfl (by decide) (by decide)
      (Or.inr rfl)).1,
    (way_area_committed_iff_okay cfg_new_style env_ok Stats.zero []
      ⟨1, closed_nodes, [⟨"highway", "residential"⟩]⟩ rfl (by decide) (by decide)
      (Or.inr rfl)).2.1 rfl⟩

/-! ## C5: short ways -/

/-- C5, as amended: for every way with fewer than 2 nodes that is not tagged
area=no, under every configuration with create_way_polygons set, way assembly
returns false, increases short_ways by exactly 1, changes no other counter and
commits nothing. -/
theorem short_way_fails (cfg : Config) (env : Collaborators) (st : Stats) (buf : Buffer)
    (way : Way) (hpoly : cfg.create_way_polygons = true)
    (harea : (⟨"area", "no"⟩ : Tag) ∉ way.tags) (hnodes : way.nodes.length < 2) :
    assemble_way cfg env st buf way =
      (false, { st with short_ways := st.short_ways + 1 }, buf) := by
  unfold assemble_way
  have h1 : ¬ ((!cfg.create_way_polygons) = true) := by simp [hpoly]
  have h2 : ¬ (has_tag way.tags "area" "no" = true) := by
    rw [has_tag_iff]; exact harea
  rw [if_neg h1, if_neg h2, if_pos hnodes]

/-- C5, witness: a way with one node. -/
theorem short_way_fails_witness :
    cfg_new_style.create_way_polygons = true ∧
    (⟨"area", "no"⟩ : Tag) ∉ [(⟨"highway", "residential"⟩ : Tag)] ∧
    [(⟨1, (0, 0)⟩ : NodeRef)].length < 2 ∧
    assemble_way cfg_new_style env_ok Stats.zero []
        ⟨1, [⟨1, (0, 0)⟩], [⟨"highway", "residential"⟩]⟩ =
      (false, { Stats.zero with short_ways := 1 }, []) :=
  ⟨rfl, by decide, by decide,
    short_way_fails cfg_new_style env_ok Stats.zero []
      ⟨1, [⟨1, (0, 0)⟩], [⟨"highway", "residential"⟩]⟩ rfl (by decide) (by decide)⟩

/-- C5, counterexample: with create_way_polygons unset a way without nodes
returns true and short_ways stays 0; so does, under any configuration, a way
with one node tagged area=no. -/
theorem short_way_counterexample :
    (assemble_way cfg_no_way_polygons env_ok Stats.zero [] ⟨1, [], []⟩).1 = true ∧
    (assemble_way cfg_no_way_polygons env_ok Stats.zero [] ⟨1, [], []⟩).2.1.short_ways = 0 ∧
    (assemble_way cfg_new_style env_ok Stats.zero []
      ⟨1, [⟨1, (0, 0)⟩], [⟨"area", "no"⟩]⟩).1 = true ∧
    (assemble_way cfg_new_style env_ok Stats.zero []
      ⟨1, [⟨1, (0, 0)⟩], [⟨"area", "no"⟩]⟩).2.1.short_ways = 0 := by
  decide

/-! ## C6: ways tagged area=no -/

/-- C6: for every way carrying the tag area=no, under every configuration and
every prior state, way assembly returns true and leaves the output buffer and
every counter unchanged. -/
theorem area_no_way_is_skipped (cfg : Config) (env : Collaborators) (st : Stats)
    (buf : Buffer) (way : Way) (harea : (⟨"area", "no"⟩ : Tag) ∈ way.tags) :
    assemble_way cfg env st buf way = (true, st, buf) := by
  unfold assemble_way
  have h2 : has_tag way.tags "area" "no" = true := (has_tag_iff _ _ _).2 harea
  by_cases h1 : (!cfg.create_way_polygons) = true
  · rw [if_pos h1]
  · rw [if_neg h1, if_pos h2]

/-- C6, witness: a closed way tagged building=yes, area=no on an assembler
that has counted before. -/
theorem area_no_way_is_skipped_witness :
    (⟨"area", "no"⟩ : Tag) ∈ [(⟨"building", "yes"⟩ : Tag), ⟨"area", "no"⟩] ∧
    assemble_way cfg_new_style env_ok { Stats.zero with from_ways := 3 } []
        ⟨1, closed_nodes, [⟨"building", "yes"⟩, ⟨"area", "no"⟩]⟩ =
      (true, { Stats.zero with from_ways := 3 }, []) :=
  ⟨by decide,
    area_no_way_is_skipped cfg_new_style env_ok { Stats.zero with from_ways := 3 } []
      ⟨1, closed_nodes, [⟨"building", "yes"⟩, ⟨"area", "no"⟩]⟩ (by decide)⟩

/-! ## C7: where the relation's area takes its tags from -/

/-- C7: relation-tag selection chooses by the ignore-set count. If the
relation has a tag whose key is outside the ignore-set, the area's tags are
the relation's tags when keep_type_tag is set and the relation's tags without
those of key `type` otherwise, and the counters are unchanged. If it has none,
no_tags_on_relation increases by exactly 1, no other counter changes and the
tags come from the outer ways. So no_tags_on_relation is incremented iff the
fallback is taken. -/
theorem relation_tags_source (cfg : Config) (st : Stats) (rings : List Ring)
    (builder : Area) (relation : Relation) :
    ((∃ t ∈ relation.tags, t.key ∉ ignored_keys) →
      add_tags_to_area_relation cfg st rings builder relation =
        (st, { builder with tags :=
          if cfg.keep_type_tag = true then relation.tags
          else relation.tags.filter (fun t => t.key != "type") })) ∧
    ((∀ t ∈ relation.tags, t.key ∈ ignored_keys) →
      add_tags_to_area_relation cfg st rings builder relation =
        ({ st with no_tags_on_relation := st.no_tags_on_relation + 1 },
          { builder with tags := tags_from_ways (outer_ways rings) })) ∧
    ((add_tags_to_area_relation cfg st rings builder relation).1.no_tags_on_relation
        = st.no_tags_on_relation + 1 ↔ ∀ t ∈ relation.tags, t.key ∈ ignored_keys) ∧
    ((add_tags_to_area_relation cfg st rings builder relation).1.no_tags_on_relation
        = st.no_tags_on_relation ↔ ∃ t ∈ relation.tags, t.key ∉ ignored_keys) := by
  have hcnt : relation.tags.countP filter > 0 ↔ ∃ t ∈ relation.tags, t.key ∉ ignored_keys := by
    rw [gt_iff_lt, List.countP_pos_iff]
    constructor
    · rintro ⟨t, ht, hf⟩
      exact ⟨t, ht, (filter_iff t).1 hf⟩
    · rintro ⟨t, ht, hf⟩
      exact ⟨t, ht, (filter_iff t).2 hf⟩
  have hall : (∀ t ∈ relation.tags, t.key ∈ ignored_keys) ↔
      ¬ ∃ t ∈ relation.tags, t.key ∉ ignored_keys := by
    constructor
    · rintro h ⟨t, ht, hn⟩
      exact hn (h t ht)
    · intro h t ht
      by_contra hn
      exact h ⟨t, ht, hn⟩
  unfold add_tags_to_area_relation
  simp only []
  by_cases hc : relation.tags.countP filter > 0
  · have he := hcnt.1 hc
    rw [if_pos hc]
    refine ⟨fun _ => ?_, fun h => absurd he (hall.1 h), ?_, ?_⟩
    · by_cases hk : cfg.keep_type_tag = true
      · rw [if_pos hk, if_pos hk]
      · rw [if_neg hk, if_neg hk]; rfl
    · constructor
      · intro h
        split_ifs at h <;> simp at h
      · intro h
        exact absurd he (hall.1 h)
    · constructor
      · intro _; exact he
      · intro _
        split_ifs <;> rfl
  · have he : ¬ ∃ t ∈ relation.tags, t.key ∉ ignored_keys := fun h => hc (hcnt.2 h)
    rw [if_neg hc]
    refine ⟨fun h => absurd h he, fun _ => rfl, ?_, ?_⟩
    · constructor
      · intro _; exact hall.2 he
      · intro _; rfl
    · constructor
      · intro h
        simp at h
      · intro h
        exact absurd h he

/-! ## C8: failed ring building -/

/-- C8, as amended: for every relation assembly in which ring building fails
and create_empty_areas is not set, under every multipolygon style and every
prior state, the relation's area is rolled back: the call appends nothing to
the buffer but areas made from ways by the child assemblies. -/
theorem failed_rings_roll_back (cfg : Config) (env : Collaborators) (st : Stats)
    (buf : Buffer) (relation : Relation) (members : List WayPtr)
    (hfail : (env.create_rings_relation relation members).okay = false)
    (hempty : cfg.create_empty_areas = false) :
    ∃ rest, (assemble_relation cfg env st buf relation members).2.2 = buf ++ rest ∧
      ∀ b ∈ rest, b.from_way = true := by
  by_cases hmem : relation.members = []
  · refine ⟨[], ?_, fun b hb => by cases hb⟩
    simp [assemble_relation, hmem]
  by_cases hloc : cfg.ignore_invalid_locations = true ∨
      (env.extract_segments_from_ways relation members).invalid_locations = 0
  · rw [assemble_relation_main cfg env st buf relation members hmem hloc, hfail, hempty]
    have hc : ¬ (commits cfg (counters_at_commit cfg env st relation members)
        (false || false) = true) := by
      simp [commits]
    rw [if_neg hc]
    exact build_inner_areas_buffer cfg env _ _
  · refine ⟨[], ?_, fun b hb => by cases hb⟩
    have h1 : ¬ (relation.members.isEmpty = true) := by
      rw [List.isEmpty_iff]; exact hmem
    have h2 : (!cfg.ignore_invalid_locations &&
        decide ((count_extraction env st relation members).invalid_locations > 0)) = true := by
      simp only [not_or] at hloc
      have h3 : cfg.ignore_invalid_locations = false := by
        cases h : cfg.ignore_invalid_locations
        · rfl
        · exact absurd h hloc.1
      have h4 : 0 < (env.extract_segments_from_ways relation members).invalid_locations :=
        Nat.pos_of_ne_zero hloc.2
      simp [count_extraction, h3, h4]
    unfold assemble_relation
    rw [if_neg h1]
    simp only []
    rw [if_pos h2, List.append_nil]

/-- C8, witness: the lake relation when ring building fails and empty areas
are not asked for. -/
theorem failed_rings_roll_back_witness :
    (env_no_rings.create_rings_relation lake_relation [lake_outer, island_same]).okay = false ∧
    cfg_new_style.create_empty_areas = false ∧
    ∃ rest, (assemble_relation cfg_new_style env_no_rings Stats.zero [] lake_relation
        [lake_outer, island_same]).2.2 = [] ++ rest ∧ ∀ b ∈ rest, b.from_way = true :=
  ⟨rfl, rfl, failed_rings_roll_back cfg_new_style env_no_rings Stats.zero [] lake_relation
    [lake_outer, island_same] rfl rfl⟩

/-- C8, counterexample: with create_empty_areas set, ring building fails on the
lake relation and its area, tagged name=Lake and natural=water and without
rings, is committed all the same. -/
theorem failed_rings_counterexample :
    (env_no_rings.create_rings_relation lake_relation [lake_outer, island_same]).okay = false ∧
    (assemble_relation cfg_empty_areas env_no_rings Stats.zero [] lake_relation
        [lake_outer, island_same]).2.2 =
      [⟨false, 5, [⟨"name", "Lake"⟩, ⟨"natural", "water"⟩], []⟩] := by
  decide

/-! ## C9: the result after a style rollback -/

/-- C9, as amended: for every relation assembly that reaches the commit
decision with `okay` true, whose area is rolled back because the configured
multipolygon style does not match, and in which no inner way is listed for
re-assembly: nothing is committed and the returned value is true, the value of
`ring building succeeded or create_empty_areas`; it is the Ring Builder's
success flag whenever create_empty_areas is not set. The rollback never turns
the result into failure. -/
theorem style_rollback_keeps_result (cfg : Config) (env : Collaborators) (st : Stats)
    (buf : Buffer) (relation : Relation) (members : List WayPtr)
    (hmem : relation.members ≠ [])
    (hloc : cfg.ignore_invalid_locations = true ∨
      (env.extract_segments_from_ways relation members).invalid_locations = 0)
    (hok : ((env.create_rings_relation relation members).okay || cfg.create_empty_areas) = true)
    (hstyle : ((cfg.create_new_style_polygons &&
        (counters_at_commit cfg env st relation members).no_tags_on_relation == 0) ||
      (cfg.create_old_style_polygons &&
        (counters_at_commit cfg env st relation members).no_tags_on_relation != 0)) = false)
    (hnone : (reclassify (counters_at_commit cfg env st relation members) relation members
      (area_built cfg env st relation members).tags).2 = []) :
    (assemble_relation cfg env st buf relation members).1 = true ∧
    (assemble_relation cfg env st buf relation members).2.2 = buf ∧
    (cfg.create_empty_areas = false →
      (assemble_relation cfg env st buf relation members).1
        = (env.create_rings_relation relation members).okay) := by
  rw [assemble_relation_main cfg env st buf relation members hmem hloc, hnone, hok]
  have hc : ¬ (commits cfg (counters_at_commit cfg env st relation members) true = true) := by
    simp only [commits, if_true, hstyle]
    simp
  rw [if_neg hc]
  refine ⟨rfl, rfl, fun he => ?_⟩
  rw [he, Bool.or_false] at hok
  rw [hok]
  rfl

/-- C9, witness: the untagged relation under a new-style-only configuration,
with successful ring building over two untagged outer ways: the area is rolled
back and the call returns true. -/
theorem style_rollback_keeps_result_witness :
    untagged_relation.members ≠ [] ∧
    ((env_ok.create_rings_relation untagged_relation [lake_outer, lake_outer]).okay ||
      cfg_new_style.create_empty_areas) = true ∧
    (assemble_relation cfg_new_style env_ok Stats.zero [] untagged_relation
      [lake_outer, lake_outer]).1 = true ∧
    (assemble_relation cfg_new_style env_ok Stats.zero [] untagged_relation
      [lake_outer, lake_outer]).2.2 = [] :=
  ⟨by decide, rfl,
    (style_rollback_keeps_result cfg_new_style env_ok Stats.zero [] untagged_relation
      [lake_outer, lake_outer] (by decide) (Or.inr rfl) rfl (by decide) (by decide)).1,
    (style_rollback_keeps_result cfg_new_style env_ok Stats.zero [] untagged_relation
      [lake_outer, lake_outer] (by decide) (Or.inr rfl) rfl (by decide) (by decide)).2.1⟩

/-- C9, counterexample: with create_empty_areas set and new-style polygons
only, ring building fails on the untagged relation; the area is rolled back
for its style, no inner way is listed, nothing is committed, and the call
returns true while the Ring Builder's success flag is false. -/
theorem style_rollback_counterexample :
    (env_no_rings.create_rings_relation untagged_relation [lake_outer, lake_outer]).okay
      = false ∧
    commits cfg_empty_areas
      (counters_at_commit cfg_empty_areas env_no_rings Stats.zero untagged_relation
        [lake_outer, lake_outer]) true = false ∧
    (reclassify
      (counters_at_commit cfg_empty_areas env_no_rings Stats.zero untagged_relation
        [lake_outer, lake_outer]) untagged_relation [lake_outer, lake_outer]
      (area_built cfg_empty_areas env_no_rings Stats.zero untagged_relation
        [lake_outer, lake_outer]).tags).2 = [] ∧
    (assemble_relation cfg_empty_areas env_no_rings Stats.zero [] untagged_relation
      [lake_outer, lake_outer]).2.2 = [] ∧
    (assemble_relation cfg_empty_areas env_no_rings Stats.zero [] untagged_relation
      [lake_outer, lake_outer]).1 = true := by
  decide

/-! ## C10: supersets and subsets of the area's tags -/

/-- C10: for every eligible inner member (role "inner", way non-empty, closed,
with a tag outside the ignore-set) of a relation assembled without wrong-role
member, whose set of non-ignored tags is a strict superset or a strict subset
of the area's non-ignored tags: the way is listed for re-assembly and the
check on it leaves every counter, inner_with_same_tags included, as it was. -/
theorem strict_superset_or_subset_is_flagged (st : Stats) (relation : Relation)
    (members : List WayPtr) (area_tags : TagList) (member : RelationMember) (way : WayPtr)
    (hwr : st.wrong_role = 0)
    (hin : (member, way) ∈ relation.members.zip members)
    (helig : eligible_inner member way = true)
    (hstrict :
      ((∀ t ∈ non_ignored area_tags, t ∈ non_ignored way.way.tags) ∧
        ∃ t ∈ non_ignored way.way.tags, t ∉ non_ignored area_tags) ∨
      ((∀ t ∈ non_ignored way.way.tags, t ∈ non_ignored area_tags) ∧
        ∃ t ∈ non_ignored area_tags, t ∉ non_ignored way.way.tags)) :
    way ∈ (reclassify st relation members area_tags).2 ∧
    ∀ acc, inner_ring_check area_tags acc member way = (acc.1, acc.2 ++ [way]) := by
  have hne : non_ignored way.way.tags ≠ non_ignored area_tags := by
    intro e
    rcases hstrict with ⟨_, t, ht, hn⟩ | ⟨_, t, ht, hn⟩
    · exact hn (e ▸ ht)
    · exact hn (e ▸ ht)
  constructor
  · have hl : (reclassify st relation members area_tags).2 =
        ((relation.members.zip members).filter (fun mw => eligible_inner mw.1 mw.2 &&
          decide (non_ignored mw.2.way.tags ≠ non_ignored area_tags))).map Prod.snd := by
      unfold reclassify for_each_member
      rw [inner_ring_check_fold]
      simp [hwr]
    rw [hl]
    simp only [List.mem_map, List.mem_filter, Bool.and_eq_true, decide_eq_true_eq]
    exact ⟨(member, way), ⟨hin, helig, hne⟩, rfl⟩
  · intro acc
    rw [inner_ring_check_eq, if_pos helig, if_neg hne]

/-- C10, witness: an island tagged name=Lake, natural=water, place=island inside
the lake: its tags are a strict superset of the area's. -/
theorem strict_superset_or_subset_is_flagged_witness :
    Stats.zero.wrong_role = 0 ∧
    ((⟨"inner"⟩ : RelationMember), island_superset) ∈
      lake_relation.members.zip [lake_outer, island_superset] ∧
    eligible_inner ⟨"inner"⟩ island_superset = true ∧
    island_superset ∈ (reclassify Stats.zero lake_relation [lake_outer, island_superset]
      [⟨"name", "Lake"⟩, ⟨"natural", "water"⟩]).2 ∧
    inner_ring_check [⟨"name", "Lake"⟩, ⟨"natural", "water"⟩] (Stats.zero, []) ⟨"inner"⟩
      island_superset = (Stats.zero, [] ++ [island_superset]) :=
  ⟨rfl, by decide, by decide,
    (strict_superset_or_subset_is_flagged Stats.zero lake_relation
      [lake_outer, island_superset] [⟨"name", "Lake"⟩, ⟨"natural", "water"⟩] ⟨"inner"⟩
      island_superset rfl (by decide) (by decide)
      (Or.inl ⟨by decide, ⟨"place", "island"⟩, by decide, by decide⟩)).1,
    (strict_superset_or_subset_is_flagged Stats.zero lake_relation
      [lake_outer, island_superset] [⟨"name", "Lake"⟩, ⟨"natural", "water"⟩] ⟨"inner"⟩
      island_superset rfl (by decide) (by decide)
      (Or.inl ⟨by decide, ⟨"place", "island"⟩, by decide, by decide⟩)).2 (Stats.zero, [])⟩


/-! ## C20: the test of line 346 as a comparison of sequences -/

/-- C20: the test of line 346 over the filtered tag iterators, whatever is read
past the end of the area's tags, is true iff the sequence of the way's
non-ignored tags differs from the sequence of the area's non-ignored tags; so
the check on an eligible inner member either lists the way (sequences differ)
or counts it (sequences identical, order included), never both, and leaves
everything else as it was. -/
theorem inner_ring_test_is_sequence_comparison (b : Bool) (way_tags area_tags : TagList) :
    ((!std_equal b (way_tags.filter filter) (area_tags.filter filter) ||
        way_tags.countP filter != (area_tags.filter filter).length)
      = filtered_sequences_differ way_tags area_tags) ∧
    (tags_differ way_tags area_tags = filtered_sequences_differ way_tags area_tags) ∧
    (∀ (acc : Stats × List WayPtr) (member : RelationMember) (way : WayPtr),
      eligible_inner member way = true →
      (filtered_sequences_differ way.way.tags area_tags = true →
        inner_ring_check area_tags acc member way = (acc.1, acc.2 ++ [way])) ∧
      (filtered_sequences_differ way.way.tags area_tags = false →
        inner_ring_check area_tags acc member way =
          ({ acc.1 with inner_with_same_tags := acc.1.inner_with_same_tags + 1 }, acc.2))) := by
  have h1 : ∀ b' (w a : TagList),
      (!std_equal b' (w.filter filter) (a.filter filter) ||
        w.countP filter != (a.filter filter).length) = filtered_sequences_differ w a := by
    intro b' w a
    rw [Bool.eq_iff_iff, test_iff_ne, filter_eq_non_ignored, filter_eq_non_ignored]
    simp [filtered_sequences_differ]
  refine ⟨h1 b way_tags area_tags, h1 false way_tags area_tags, ?_⟩
  intro acc member way helig
  rw [inner_ring_check_eq, if_pos helig]
  constructor
  · intro hd
    have : non_ignored way.way.tags ≠ non_ignored area_tags := by
      simpa [filtered_sequences_differ] using hd
    rw [if_neg this]
  · intro hd
    have : non_ignored way.way.tags = non_ignored area_tags := by
      simpa [filtered_sequences_differ] using hd
    rw [if_pos this]

/-! ## C15: relations without members -/

/-- C15: for every relation with zero members, under every configuration,
prior state and collaborators, relation assembly returns false, increases
no_way_in_mp_relation by exactly 1, changes no other counter and leaves the
buffer as it was; the result does not depend on ring building or on any way
assembly. -/
theorem empty_relation_fails (cfg : Config) (env : Collaborators) (st : Stats) (buf : Buffer)
    (relation : Relation) (members : List WayPtr) (hmem : relation.members = []) :
    assemble_relation cfg env st buf relation members =
      (false, { st with no_way_in_mp_relation := st.no_way_in_mp_relation + 1 }, buf) := by
  unfold assemble_relation
  have h : relation.members.isEmpty = true := by rw [hmem]; rfl
  rw [if_pos h]

/-- C15, witness: a tagged relation without members on an assembler that has
assembled two relations before, with ring building that would succeed. -/
theorem empty_relation_fails_witness :
    empty_relation.members = [] ∧
    assemble_relation cfg_new_style env_ok { Stats.zero with from_relations := 2 } []
        empty_relation [] =
      (false, { Stats.zero with from_relations := 2, no_way_in_mp_relation := 1 }, []) :=
  ⟨rfl, empty_relation_fails cfg_new_style env_ok { Stats.zero with from_relations := 2 } []
    empty_relation [] rfl⟩

/-! ## The counters at the commit decision -/

/-- What relation assembly has done to the counters when `create_area` has
returned: `wrong_role` has grown by what ring building counted, and the
counters of way assembly and of the inner-ring check are untouched. -/
theorem counters_at_commit_frame (cfg : Config) (env : Collaborators) (st : Stats)
    (relation : Relation) (members : List WayPtr) :
    (counters_at_commit cfg env st relation members).wrong_role =
      st.wrong_role + (env.create_rings_relation relation members).wrong_role ∧
    (counters_at_commit cfg env st relation members).inner_with_same_tags =
      st.inner_with_same_tags ∧
    (counters_at_commit cfg env st relation members).from_ways = st.from_ways ∧
    (counters_at_commit cfg env st relation members).short_ways = st.short_ways ∧
    (counters_at_commit cfg env st relation members).no_way_in_mp_relation =
      st.no_way_in_mp_relation := by
  unfold counters_at_commit create_area_relation add_tags_to_area_relation count_members
    count_extraction
  simp only []
  refine ⟨?_, ?_, ?_, ?_, ?_⟩ <;> split_ifs <;> rfl

/-! ## C17: a wrong role skips the inner-ring check -/

/-- C17: in a relation assembly that reaches the inner-ring check with the
wrong_role counter non-zero after ring building, the check is skipped: the
list of ways to re-assemble is empty, no child assembly runs (the buffer holds
at most the relation's own area more than before), inner_with_same_tags is what
it was before the call, and the result is the relation's own success flag. -/
theorem wrong_role_skips_reclassification (cfg : Config) (env : Collaborators) (st : Stats)
    (buf : Buffer) (relation : Relation) (members : List WayPtr)
    (hmem : relation.members ≠ [])
    (hloc : cfg.ignore_invalid_locations = true ∨
      (env.extract_segments_from_ways relation members).invalid_locations = 0)
    (hwr : (counters_at_commit cfg env st relation members).wrong_role ≠ 0) :
    (reclassify (counters_at_commit cfg env st relation members) relation members
        (area_built cfg env st relation members).tags).2 = [] ∧
    assemble_relation cfg env st buf relation members =
      ((env.create_rings_relation relation members).okay || cfg.create_empty_areas,
        counters_at_commit cfg env st relation members,
        if commits cfg (counters_at_commit cfg env st relation members)
            ((env.create_rings_relation relation members).okay || cfg.create_empty_areas)
            = true then
          buf ++ [area_built cfg env st relation members]
        else buf) ∧
    (assemble_relation cfg env st buf relation members).2.1.inner_with_same_tags =
      st.inner_with_same_tags := by
  have hr : reclassify (counters_at_commit cfg env st relation members) relation members
      (area_built cfg env st relation members).tags =
      (counters_at_commit cfg env st relation members, []) := by
    unfold reclassify
    have : ¬ ((counters_at_commit cfg env st relation members).wrong_role == 0) = true := by
      simpa using hwr
    rw [if_neg this]
  have hmain := assemble_relation_main cfg env st buf relation members hmem hloc
  rw [hr] at hmain
  have hb : ∀ acc, build_inner_areas cfg env [] acc = acc := fun _ => rfl
  rw [hb] at hmain
  refine ⟨by rw [hr], hmain, ?_⟩
  rw [hmain]
  exact (counters_at_commit_frame cfg env st relation members).2.1

/-- C17, witness: the lake relation with a differently tagged inner way, when
ring building counts one member with a wrong role: the inner way is not
listed and only the relation's area is committed. -/
theorem wrong_role_skips_reclassification_witness :
    lake_relation.members ≠ [] ∧
    (counters_at_commit cfg_new_style env_wrong_role Stats.zero lake_relation
      [lake_outer, island_superset]).wrong_role ≠ 0 ∧
    (reclassify (counters_at_commit cfg_new_style env_wrong_role Stats.zero lake_relation
        [lake_outer, island_superset]) lake_relation [lake_outer, island_superset]
      (area_built cfg_new_style env_wrong_role Stats.zero lake_relation
        [lake_outer, island_superset]).tags).2 = [] ∧
    (assemble_relation cfg_new_style env_wrong_role Stats.zero [] lake_relation
      [lake_outer, island_superset]).2.1.inner_with_same_tags = 0 :=
  ⟨by decide, by decide,
    (wrong_role_skips_reclassification cfg_new_style env_wrong_role Stats.zero []
      lake_relation [lake_outer, island_superset] (by decide) (Or.inr rfl) (by decide)).1,
    (wrong_role_skips_reclassification cfg_new_style env_wrong_role Stats.zero []
      lake_relation [lake_outer, island_superset] (by decide) (Or.inr rfl) (by decide)).2.2⟩

/-! ## The child loop -/

theorem stats_add_zero (a : Stats) : a.add Stats.zero = a := by
  cases a
  simp [Stats.add, Stats.zero]

theorem stats_add_assoc (a b c : Stats) : (a.add b).add c = a.add (b.add c) := by
  simp [Stats.add, Nat.add_assoc]

theorem child_runs_length (cfg : Config) (env : Collaborators) (ways : List WayPtr)
    (buf : Buffer) : (child_runs cfg env ways buf).length = ways.length := by
  induction ways generalizing buf with
  | nil => rfl
  | cons w ws ih => simp [child_runs, ih]

/-- Every listed way has its child run, at the same position: way assembly on a
fresh assembler with the parent's configuration. -/
theorem child_runs_at (cfg : Config) (env : Collaborators) (ways : List WayPtr)
    (buf : Buffer) (i : Nat) (w : WayPtr) (hw : ways[i]? = some w) :
    ∃ b, (child_runs cfg env ways buf)[i]? = some (assemble_way cfg env Stats.zero b w.way) := by
  induction ways generalizing buf i with
  | nil => simp at hw
  | cons x xs ih =>
    cases i with
    | zero =>
      simp only [List.getElem?_cons_zero, Option.some.injEq] at hw
      subst hw
      exact ⟨buf, by simp [child_runs]⟩
    | succ j =>
      simp only [List.getElem?_cons_succ] at hw
      obtain ⟨b, hb⟩ := ih (assemble_way cfg env Stats.zero buf x.way).2.2 j hw
      exact ⟨b, by simpa [child_runs] using hb⟩

/-- The loop of lines 365-371 in terms of its child runs: the result is the
conjunction of the parent's flag with every child's, the counters are the
parent's plus the sum of the children's, the buffer is the last child's. -/
theorem build_inner_areas_eq (cfg : Config) (env : Collaborators) (ways : List WayPtr)
    (okay : Bool) (st : Stats) (buf : Buffer) :
    build_inner_areas cfg env ways (okay, st, buf) =
      (okay && (child_runs cfg env ways buf).all (fun r => r.1),
        st.add (Stats.sum ((child_runs cfg env ways buf).map (fun r => r.2.1))),
        last_buffer buf (child_runs cfg env ways buf)) := by
  induction ways generalizing okay st buf with
  | nil => simp [build_inner_areas, child_runs, Stats.sum, last_buffer, stats_add_zero]
  | cons w ws ih =>
    unfold build_inner_areas at ih ⊢
    rw [List.foldl_cons]
    simp only []
    rw [ih]
    simp only [child_runs, List.all_cons, List.map_cons, Stats.sum, List.foldr_cons,
      last_buffer, stats_add_assoc]
    cases (assemble_way cfg env Stats.zero buf w.way).1 <;> cases okay <;> simp

/-! ## C11: the child assemblies of a relation -/

/-- C11: in a relation assembly that reaches the inner-ring check and lists
the ways w1..wk, exactly k child way-assemblies are run, one per listed way in
order, each on a fresh assembler (zeroed counters) with the parent's
configuration; the parent's final counters are its counters just before the
child loop plus the counter-wise sum of the children's; the result is the
relation's own success flag conjoined with the success of every child; and the
buffer as it was before the loop, the relation's committed area included, is
kept as the beginning of the final buffer. -/
theorem child_assemblies_fold_into_parent (cfg : Config) (env : Collaborators) (st : Stats)
    (buf : Buffer) (relation : Relation) (members : List WayPtr)
    (hmem : relation.members ≠ [])
    (hloc : cfg.ignore_invalid_locations = true ∨
      (env.extract_segments_from_ways relation members).invalid_locations = 0) :
    (child_runs cfg env (flagged_ways cfg env st relation members)
        (buffer_before_children cfg env st buf relation members)).length
      = (flagged_ways cfg env st relation members).length ∧
    (∀ (i : Nat) (w : WayPtr), (flagged_ways cfg env st relation members)[i]? = some w →
      ∃ b, (child_runs cfg env (flagged_ways cfg env st relation members)
          (buffer_before_children cfg env st buf relation members))[i]?
        = some (assemble_way cfg env Stats.zero b w.way)) ∧
    assemble_relation cfg env st buf relation members =
      (((env.create_rings_relation relation members).okay || cfg.create_empty_areas) &&
          (child_runs cfg env (flagged_ways cfg env st relation members)
            (buffer_before_children cfg env st buf relation members)).all (fun r => r.1),
        (counters_before_children cfg env st relation members).add
          (Stats.sum ((child_runs cfg env (flagged_ways cfg env st relation members)
            (buffer_before_children cfg env st buf relation members)).map (fun r => r.2.1))),
        last_buffer (buffer_before_children cfg env st buf relation members)
          (child_runs cfg env (flagged_ways cfg env st relation members)
            (buffer_before_children cfg env st buf relation members))) ∧
    (∃ rest, (assemble_relation cfg env st buf relation members).2.2 =
      buffer_before_children cfg env st buf relation members ++ rest) := by
  have hmain := assemble_relation_main cfg env st buf relation members hmem hloc
  refine ⟨child_runs_length _ _ _ _, fun i w hw => child_runs_at _ _ _ _ i w hw, ?_, ?_⟩
  · rw [hmain, build_inner_areas_eq]
    rfl
  · rw [hmain]
    obtain ⟨rest, h, _⟩ := build_inner_areas_buffer cfg env
      (reclassify (counters_at_commit cfg env st relation members) relation members
        (area_built cfg env st relation members).tags).2
      ((env.create_rings_relation relation members).okay || cfg.create_empty_areas,
        (reclassify (counters_at_commit cfg env st relation members) relation members
          (area_built cfg env st relation members).tags).1,
        if commits cfg (counters_at_commit cfg env st relation members)
            ((env.create_rings_relation relation members).okay || cfg.create_empty_areas)
            = true then
          buf ++ [area_built cfg env st relation members]
        else buf)
    exact ⟨rest, h⟩

/-- C11, witness (scenario D of §8): the lake relation with one inner way
tagged differently from the area: exactly one child runs, on that way, and the
parent's from_ways counter is the child's. -/
theorem child_assemblies_fold_into_parent_witness :
    lake_relation.members ≠ [] ∧
    flagged_ways cfg_new_style env_ok Stats.zero lake_relation [lake_outer, island_superset]
      = [island_superset] ∧
    (child_runs cfg_new_style env_ok
      (flagged_ways cfg_new_style env_ok Stats.zero lake_relation [lake_outer, island_superset])
      (buffer_before_children cfg_new_style env_ok Stats.zero [] lake_relation
        [lake_outer, island_superset])).length = 1 ∧
    (assemble_relation cfg_new_style env_ok Stats.zero [] lake_relation
      [lake_outer, island_superset]).2.1.from_ways = 1 :=
  ⟨by decide, by decide,
    (child_assemblies_fold_into_parent cfg_new_style env_ok Stats.zero [] lake_relation
      [lake_outer, island_superset] (by decide) (Or.inr rfl)).1.trans (by decide),
    by
      rw [(child_assemblies_fold_into_parent cfg_new_style env_ok Stats.zero [] lake_relation
        [lake_outer, island_superset] (by decide) (Or.inr rfl)).2.2.1]
      decide⟩

/-! ## C12: one inner way with the area's tags -/

/-- The inner-ring check of a relation assembly without wrong-role member, in
terms of the members of role "inner" only. -/
theorem reclassify_inner_members (st : Stats) (relation : Relation) (members : List WayPtr)
    (area_tags : TagList) (hwr : st.wrong_role = 0) :
    reclassify st relation members area_tags =
      ({ st with inner_with_same_tags := st.inner_with_same_tags +
          (((relation.members.zip members).filter (fun mw => mw.1.role == "inner")).filter
            (fun mw => eligible_inner mw.1 mw.2 &&
              decide (non_ignored mw.2.way.tags = non_ignored area_tags))).length },
        (((relation.members.zip members).filter (fun mw => mw.1.role == "inner")).filter
            (fun mw => eligible_inner mw.1 mw.2 &&
              decide (non_ignored mw.2.way.tags ≠ non_ignored area_tags))).map Prod.snd) := by
  have h : ∀ (P : RelationMember × WayPtr → Bool) (l : List (RelationMember × WayPtr)),
      (l.filter (fun mw => mw.1.role == "inner")).filter
        (fun mw => eligible_inner mw.1 mw.2 && P mw) =
      l.filter (fun mw => eligible_inner mw.1 mw.2 && P mw) := by
    intro P l
    rw [List.filter_filter]
    congr 1
    funext mw
    unfold eligible_inner
    cases (mw.1.role == "inner") <;> simp
  unfold reclassify for_each_member
  rw [inner_ring_check_fold, h, h]
  simp [hwr]

/-- C12, as amended: for every relation assembly that reaches the inner-ring
check without wrong-role member, with exactly one inner-role member, whose way
is non-empty, closed and has at least one tag outside the ignore-set, and whose
non-ignored tags are, in stored order, the area's non-ignored tags: no way is
listed, no child assembly runs (from_ways and the buffer stay as the relation's
own part left them) and inner_with_same_tags increases by exactly 1. -/
theorem same_tagged_inner_is_counted (cfg : Config) (env : Collaborators) (st : Stats)
    (buf : Buffer) (relation : Relation) (members : List WayPtr)
    (member : RelationMember) (way : WayPtr)
    (hmem : relation.members ≠ [])
    (hloc : cfg.ignore_invalid_locations = true ∨
      (env.extract_segments_from_ways relation members).invalid_locations = 0)
    (hwr : (counters_at_commit cfg env st relation members).wrong_role = 0)
    (hone : (relation.members.zip members).filter (fun mw => mw.1.role == "inner")
      = [(member, way)])
    (helig : eligible_inner member way = true)
    (hsame : non_ignored way.way.tags
      = non_ignored (area_built cfg env st relation members).tags) :
    flagged_ways cfg env st relation members = [] ∧
    (assemble_relation cfg env st buf relation members).2.1.inner_with_same_tags
      = st.inner_with_same_tags + 1 ∧
    (assemble_relation cfg env st buf relation members).2.1.from_ways = st.from_ways ∧
    (assemble_relation cfg env st buf relation members).2.2
      = buffer_before_children cfg env st buf relation members := by
  have hr := reclassify_inner_members (counters_at_commit cfg env st relation members)
    relation members (area_built cfg env st relation members).tags hwr
  rw [hone] at hr
  simp only [List.filter_cons, List.filter_nil, helig, hsame, Bool.true_and, decide_True,
    if_true, ne_eq, not_true_eq_false, decide_False, Bool.false_eq_true, if_false,
    List.length_singleton, List.map_nil] at hr
  have hmain := assemble_relation_main cfg env st buf relation members hmem hloc
  rw [hr] at hmain
  have hb : ∀ acc, build_inner_areas cfg env [] acc = acc := fun _ => rfl
  rw [hb] at hmain
  obtain ⟨_, h2, h3, _, _⟩ := counters_at_commit_frame cfg env st relation members
  refine ⟨?_, ?_, ?_, ?_⟩
  · unfold flagged_ways
    rw [hr]
  · rw [hmain]
    simp only []
    rw [h2]
  · rw [hmain]
    exact h3
  · rw [hmain]
    rfl

/-- C12, witness (scenario C of §8): the lake relation with one inner way
carrying the area's tags: nothing is listed and inner_with_same_tags is 1. -/
theorem same_tagged_inner_is_counted_witness :
    lake_relation.members ≠ [] ∧
    (counters_at_commit cfg_new_style env_outer_inner Stats.zero lake_relation
      [lake_outer, island_same]).wrong_role = 0 ∧
    (lake_relation.members.zip [lake_outer, island_same]).filter
      (fun mw => mw.1.role == "inner") = [(⟨"inner"⟩, island_same)] ∧
    eligible_inner ⟨"inner"⟩ island_same = true ∧
    non_ignored island_same.way.tags
      = non_ignored (area_built cfg_new_style env_outer_inner Stats.zero lake_relation
          [lake_outer, island_same]).tags ∧
    flagged_ways cfg_new_style env_outer_inner Stats.zero lake_relation
      [lake_outer, island_same] = [] ∧
    (assemble_relation cfg_new_style env_outer_inner Stats.zero [] lake_relation
      [lake_outer, island_same]).2.1.inner_with_same_tags = Stats.zero.inner_with_same_tags + 1 :=
  ⟨by decide, by decide, by decide, by decide, by decide,
    (same_tagged_inner_is_counted cfg_new_style env_outer_inner Stats.zero [] lake_relation
      [lake_outer, island_same] ⟨"inner"⟩ island_same (by decide) (Or.inr rfl) (by decide)
      (by decide) (by decide) (by decide)).1,
    (same_tagged_inner_is_counted cfg_new_style env_outer_inner Stats.zero [] lake_relation
      [lake_outer, island_same] ⟨"inner"⟩ island_same (by decide) (Or.inr rfl) (by decide)
      (by decide) (by decide) (by decide)).2.1⟩

/-- C12, counterexample: an old-style multipolygon whose outer way is untagged
and whose one inner way, closed, carries source=survey only. After removing
the ignored keys the way's tags and the area's tags are identical (both
empty); the way is skipped by the test of line 340, nothing is listed, and
inner_with_same_tags stays 0. -/
theorem same_tagged_inner_counterexample :
    (untagged_lake_relation.members.zip [lake_outer, source_only_island]).filter
      (fun mw => mw.1.role == "inner") = [(⟨"inner"⟩, source_only_island)] ∧
    (area_built cfg_old_style env_outer_inner Stats.zero untagged_lake_relation
      [lake_outer, source_only_island]).tags = [] ∧
    non_ignored source_only_island.way.tags
      = non_ignored (area_built cfg_old_style env_outer_inner Stats.zero
          untagged_lake_relation [lake_outer, source_only_island]).tags ∧
    flagged_ways cfg_old_style env_outer_inner Stats.zero untagged_lake_relation
      [lake_outer, source_only_island] = [] ∧
    (assemble_relation cfg_old_style env_outer_inner Stats.zero [] untagged_lake_relation
      [lake_outer, source_only_island]).1 = true ∧
    (assemble_relation cfg_old_style env_outer_inner Stats.zero [] untagged_lake_relation
      [lake_outer, source_only_island]).2.1.inner_with_same_tags = 0 := by
  decide

/-! ## C13: which counters only grow -/

theorem stats_le_add (a b : Stats) : Stats.le a (a.add b) := by
  simp [Stats.le, Stats.add]

theorem stats_le_accumulated_trans (a b c : Stats) (h1 : Stats.le_accumulated a b)
    (h2 : Stats.le_accumulated b c) : Stats.le_accumulated a c := by
  unfold Stats.le_accumulated at *
  omega

theorem stats_le_accumulated_of_le (a b : Stats) (h : Stats.le a b) :
    Stats.le_accumulated a b := by
  unfold Stats.le at h
  unfold Stats.le_accumulated
  omega

theorem count_way_le (env : Collaborators) (st : Stats) (way : Way) :
    Stats.le_accumulated st (count_way env st way) := by
  unfold Stats.le_accumulated count_way
  simp only []
  split_ifs
  · simp
    omega
  · simp

theorem create_area_way_le (cfg : Config) (env : Collaborators) (st : Stats) (way : Way) :
    Stats.le st (create_area_way cfg env st way).2.1 := by
  unfold Stats.le create_area_way
  simp

theorem assemble_way_le (cfg : Config) (env : Collaborators) (st : Stats) (buf : Buffer)
    (way : Way) : Stats.le_accumulated st (assemble_way cfg env st buf way).2.1 := by
  have hrefl : Stats.le_accumulated st st := by simp [Stats.le_accumulated]
  unfold assemble_way
  by_cases h1 : (!cfg.create_way_polygons) = true
  · rw [if_pos h1]; exact hrefl
  rw [if_neg h1]
  by_cases h2 : has_tag way.tags "area" "no" = true
  · rw [if_pos h2]; exact hrefl
  rw [if_neg h2]
  by_cases h3 : way.nodes.length < 2
  · rw [if_pos h3]; simp [Stats.le_accumulated]
  rw [if_neg h3]
  simp only []
  by_cases h4 : (!cfg.ignore_invalid_locations &&
      decide ((count_way env st way).invalid_locations > 0)) = true
  · rw [if_pos h4]; exact count_way_le env st way
  rw [if_neg h4]
  have h := stats_le_accumulated_trans _ _ _ (count_way_le env st way)
    (stats_le_accumulated_of_le _ _ (create_area_way_le cfg env (count_way env st way) way))
  by_cases h5 : (create_area_way cfg env (count_way env st way) way).1 = true
  · rw [if_pos h5]; exact h
  · rw [if_neg h5]; exact h

theorem counters_at_commit_le (cfg : Config) (env : Collaborators) (st : Stats)
    (relation : Relation) (members : List WayPtr) :
    Stats.le_accumulated st (counters_at_commit cfg env st relation members) := by
  unfold Stats.le_accumulated counters_at_commit create_area_relation
    add_tags_to_area_relation count_members count_extraction
  simp only []
  split_ifs <;> simp

theorem reclassify_le (st : Stats) (relation : Relation) (members : List WayPtr)
    (area_tags : TagList) : Stats.le st (reclassify st relation members area_tags).1 := by
  unfold reclassify for_each_member
  rw [inner_ring_check_fold]
  split_ifs <;> simp [Stats.le]

/-- C13, as amended: for every assembler state and every way-assembly or
relation-assembly call on it, each of the ten counters short_ways,
duplicate_nodes, duplicate_ways, from_ways, from_relations,
no_way_in_mp_relation, single_way_in_mp_relation, no_tags_on_relation,
inner_with_same_tags and wrong_role is, after the call, greater than or equal
to its value before the call. (invalid_locations and member_ways are
overwritten by the call.) -/
theorem accumulated_counters_are_monotone (cfg : Config) (env : Collaborators) (st : Stats)
    (buf : Buffer) :
    (∀ way : Way, Stats.le_accumulated st (assemble_way cfg env st buf way).2.1) ∧
    (∀ (relation : Relation) (members : List WayPtr),
      Stats.le_accumulated st (assemble_relation cfg env st buf relation members).2.1) := by
  refine ⟨fun way => assemble_way_le cfg env st buf way, fun relation members => ?_⟩
  by_cases hmem : relation.members = []
  · have h : relation.members.isEmpty = true := by rw [hmem]; rfl
    unfold assemble_relation
    rw [if_pos h]
    simp [Stats.le_accumulated]
  by_cases hloc : cfg.ignore_invalid_locations = true ∨
      (env.extract_segments_from_ways relation members).invalid_locations = 0
  · rw [assemble_relation_main cfg env st buf relation members hmem hloc, build_inner_areas_eq]
    simp only []
    exact stats_le_accumulated_trans _ _ _
      (counters_at_commit_le cfg env st relation members)
      (stats_le_accumulated_trans _ _ _
        (stats_le_accumulated_of_le _ _ (reclassify_le _ relation members _))
        (stats_le_accumulated_of_le _ _ (stats_le_add _ _)))
  · have h1 : ¬ (relation.members.isEmpty = true) := by
      rw [List.isEmpty_iff]; exact hmem
    have h2 : (!cfg.ignore_invalid_locations &&
        decide ((count_extraction env st relation members).invalid_locations > 0)) = true := by
      simp only [not_or] at hloc
      have h3 : cfg.ignore_invalid_locations = false := by
        cases h : cfg.ignore_invalid_locations
        · rfl
        · exact absurd h hloc.1
      have h4 : 0 < (env.extract_segments_from_ways relation members).invalid_locations :=
        Nat.pos_of_ne_zero hloc.2
      simp [count_extraction, h3, h4]
    unfold assemble_relation
    rw [if_neg h1]
    simp only []
    rw [if_pos h2]
    unfold Stats.le_accumulated count_extraction
    simp

/-- C13, counterexample: two calls on one assembler. Way assembly on the way of
id 1, where three invalid locations are found and tolerated, leaves
invalid_locations = 3; way assembly on a second way brings it down to 0.
Relation assembly on the lake relation leaves member_ways = 2; relation
assembly on a relation with one member brings it down to 1. -/
theorem overwritten_counters_counterexample :
    (assemble_way cfg_tolerant env_invalid_in_way_1 Stats.zero []
      ⟨1, closed_nodes, [⟨"highway", "residential"⟩]⟩).2.1.invalid_locations = 3 ∧
    (assemble_way cfg_tolerant env_invalid_in_way_1
      (assemble_way cfg_tolerant env_invalid_in_way_1 Stats.zero []
        ⟨1, closed_nodes, [⟨"highway", "residential"⟩]⟩).2.1
      (assemble_way cfg_tolerant env_invalid_in_way_1 Stats.zero []
        ⟨1, closed_nodes, [⟨"highway", "residential"⟩]⟩).2.2
      ⟨2, closed_nodes, [⟨"highway", "residential"⟩]⟩).2.1.invalid_locations = 0 ∧
    (assemble_relation cfg_new_style env_ok Stats.zero [] lake_relation
      [lake_outer, island_same]).2.1.member_ways = 2 ∧
    (assemble_relation cfg_new_style env_ok
      (assemble_relation cfg_new_style env_ok Stats.zero [] lake_relation
        [lake_outer, island_same]).2.1
      (assemble_relation cfg_new_style env_ok Stats.zero [] lake_relation
        [lake_outer, island_same]).2.2
      forest_relation [lake_outer]).2.1.member_ways = 1 := by
  decide

/-! ## C16: invalid locations -/

/-- C16: under every configuration, prior state and buffer, on each entry point
by itself. For every way that reaches segment extraction (way polygons
enabled, not tagged area=no, at least 2 nodes) and every relation that reaches
it (at least one member), when the Segment Extractor reports an
invalid-location count > 0: if ignore_invalid_locations is false, the call
returns false, leaves the buffer as it was and records the count in
invalid_locations, and relation assembly stops right after extraction, so no
inner-ring check and no child assembly is run; if ignore_invalid_locations is
true, the result is that of ring building, empty-area emission and the child
assemblies alone. -/
theorem invalid_locations_fail_unless_tolerated (cfg : Config) (env : Collaborators)
    (st : Stats) (buf : Buffer) :
    (∀ way : Way, cfg.create_way_polygons = true → (⟨"area", "no"⟩ : Tag) ∉ way.tags →
      2 ≤ way.nodes.length → 0 < (env.extract_segments_from_way way).invalid_locations →
      (cfg.ignore_invalid_locations = false →
        assemble_way cfg env st buf way = (false, count_way env st way, buf) ∧
        (assemble_way cfg env st buf way).2.1.invalid_locations
          = (env.extract_segments_from_way way).invalid_locations) ∧
      (cfg.ignore_invalid_locations = true →
        (assemble_way cfg env st buf way).1
          = ((env.create_rings_way way).okay || cfg.create_empty_areas) ∧
        (assemble_way cfg env st buf way).2.1.invalid_locations
          = (env.extract_segments_from_way way).invalid_locations)) ∧
    (∀ (relation : Relation) (members : List WayPtr), relation.members ≠ [] →
      0 < (env.extract_segments_from_ways relation members).invalid_locations →
      (cfg.ignore_invalid_locations = false →
        assemble_relation cfg env st buf relation members
          = (false, count_extraction env st relation members, buf) ∧
        (assemble_relation cfg env st buf relation members).2.1.invalid_locations
          = (env.extract_segments_from_ways relation members).invalid_locations ∧
        (assemble_relation cfg env st buf relation members).2.1.inner_with_same_tags
          = st.inner_with_same_tags ∧
        (assemble_relation cfg env st buf relation members).2.1.from_ways = st.from_ways) ∧
      (cfg.ignore_invalid_locations = true →
        (assemble_relation cfg env st buf relation members).1
          = (((env.create_rings_relation relation members).okay || cfg.create_empty_areas) &&
              (child_runs cfg env (flagged_ways cfg env st relation members)
                (buffer_before_children cfg env st buf relation members)).all
                  (fun r => r.1)))) := by
  constructor
  · intro way hpoly harea hnodes hway
    constructor
    · intro hig
      have hw : assemble_way cfg env st buf way = (false, count_way env st way, buf) := by
        unfold assemble_way
        have h1 : ¬ ((!cfg.create_way_polygons) = true) := by simp [hpoly]
        have h2 : ¬ (has_tag way.tags "area" "no" = true) := by
          rw [has_tag_iff]; exact harea
        have h3 : ¬ (way.nodes.length < 2) := by omega
        have h4 : (!cfg.ignore_invalid_locations &&
            decide ((count_way env st way).invalid_locations > 0)) = true := by
          simp [count_way, hig, hway]
        rw [if_neg h1, if_neg h2, if_neg h3]
        simp only []
        rw [if_pos h4]
      refine ⟨hw, ?_⟩
      rw [hw]; rfl
    · intro hig
      refine ⟨?_, ?_⟩
      · rw [assemble_way_main cfg env st buf way hpoly harea hnodes (Or.inl hig)]
        exact (create_area_way_area cfg env (count_way env st way) way).1
      · rw [assemble_way_main cfg env st buf way hpoly harea hnodes (Or.inl hig)]
        rfl
  · intro relation members hmem hrel
    constructor
    · intro hig
      have hr : assemble_relation cfg env st buf relation members
          = (false, count_extraction env st relation members, buf) := by
        unfold assemble_relation
        have h1 : ¬ (relation.members.isEmpty = true) := by
          rw [List.isEmpty_iff]; exact hmem
        have h2 : (!cfg.ignore_invalid_locations &&
            decide ((count_extraction env st relation members).invalid_locations > 0))
            = true := by
          simp [count_extraction, hig, hrel]
        rw [if_neg h1]
        simp only []
        rw [if_pos h2]
      refine ⟨hr, ?_, ?_, ?_⟩
      · rw [hr]; rfl
      · rw [hr]; rfl
      · rw [hr]; rfl
    · intro hig
      rw [assemble_relation_main cfg env st buf relation members hmem (Or.inl hig),
        build_inner_areas_eq]
      rfl

/-- C16, witness: three invalid locations in a closed way and two in the lake
relation. Without tolerance both calls fail and record the counts, the
relation also when areas from ways are disabled; with tolerance both
succeed. -/
theorem invalid_locations_fail_unless_tolerated_witness :
    0 < (env_invalid_locations.extract_segments_from_way
      ⟨1, closed_nodes, [⟨"highway", "residential"⟩]⟩).invalid_locations ∧
    0 < (env_invalid_locations.extract_segments_from_ways lake_relation
      [lake_outer, island_same]).invalid_locations ∧
    assemble_way cfg_new_style env_invalid_locations Stats.zero []
        ⟨1, closed_nodes, [⟨"highway", "residential"⟩]⟩ =
      (false, { Stats.zero with from_ways := 1, invalid_locations := 3 }, []) ∧
    assemble_relation cfg_new_style env_invalid_locations Stats.zero [] lake_relation
        [lake_outer, island_same] =
      (false, { Stats.zero with from_relations := 1, invalid_locations := 2 }, []) ∧
    assemble_relation cfg_no_way_polygons env_invalid_locations Stats.zero [] lake_relation
        [lake_outer, island_same] =
      (false, { Stats.zero with from_relations := 1, invalid_locations := 2 }, []) ∧
    (assemble_way cfg_tolerant env_invalid_locations Stats.zero []
        ⟨1, closed_nodes, [⟨"highway", "residential"⟩]⟩).1 = true ∧
    (assemble_relation cfg_tolerant env_invalid_locations Stats.zero [] lake_relation
        [lake_outer, island_same]).1 = true :=
  ⟨by decide, by decide,
    (((invalid_locations_fail_unless_tolerated cfg_new_style env_invalid_locations
      Stats.zero []).1 ⟨1, closed_nodes, [⟨"highway", "residential"⟩]⟩
      rfl (by decide) (by decide) (by decide)).1 rfl).1.trans (by decide),
    (((invalid_locations_fail_unless_tolerated cfg_new_style env_invalid_locations
      Stats.zero []).2 lake_relation [lake_outer, island_same]
      (by decide) (by decide)).1 rfl).1.trans (by decide),
    (((invalid_locations_fail_unless_tolerated cfg_no_way_polygons env_invalid_locations
      Stats.zero []).2 lake_relation [lake_outer, island_same]
      (by decide) (by decide)).1 rfl).1.trans (by decide),
    (((invalid_locations_fail_unless_tolerated cfg_tolerant env_invalid_locations
      Stats.zero []).1 ⟨1, closed_nodes, [⟨"highway", "residential"⟩]⟩
      rfl (by decide) (by decide) (by decide)).2 rfl).1.trans (by decide),
    ((invalid_locations_fail_unless_tolerated cfg_tolerant env_invalid_locations
      Stats.zero []).2 lake_relation [lake_outer, island_same]
      (by decide) (by decide)).2 rfl |>.trans (by decide)⟩

/-! ## C19: what the commit decision depends on -/

theorem area_built_from_relation (cfg : Config) (env : Collaborators) (st : Stats)
    (relation : Relation) (members : List WayPtr) :
    (area_built cfg env st relation members).from_way = false := by
  unfold area_built create_area_relation add_tags_to_area_relation
  simp only []
  split_ifs <;> rfl

/-- The relation's area is committed exactly when the call reaches the commit
decision of lines 317-326 and the decision is to commit. -/
theorem relation_area_committed_iff (cfg : Config) (env : Collaborators) (st : Stats)
    (buf : Buffer) (relation : Relation) (members : List WayPtr) :
    relation_area_committed buf (assemble_relation cfg env st buf relation members) ↔
      (relation.members ≠ [] ∧
        (cfg.ignore_invalid_locations = true ∨
          (env.extract_segments_from_ways relation members).invalid_locations = 0) ∧
        commits cfg (counters_at_commit cfg env st relation members)
          ((env.create_rings_relation relation members).okay || cfg.create_empty_areas)
          = true) := by
  have hno : ∀ (a : Area) (rest : List Area), buf ≠ buf ++ a :: rest := by
    intro a rest h
    have := congrArg List.length h
    simp at this
  unfold relation_area_committed
  by_cases hmem : relation.members = []
  · have h : relation.members.isEmpty = true := by rw [hmem]; rfl
    constructor
    · rintro ⟨a, rest, hb, _⟩
      unfold assemble_relation at hb
      rw [if_pos h] at hb
      exact absurd hb (hno a rest)
    · rintro ⟨h1, _⟩
      exact absurd hmem h1
  by_cases hloc : cfg.ignore_invalid_locations = true ∨
      (env.extract_segments_from_ways relation members).invalid_locations = 0
  · rw [assemble_relation_main cfg env st buf relation members hmem hloc]
    by_cases hc : commits cfg (counters_at_commit cfg env st relation members)
        ((env.create_rings_relation relation members).okay || cfg.create_empty_areas) = true
    · rw [if_pos hc]
      constructor
      · intro _
        exact ⟨hmem, hloc, hc⟩
      · intro _
        obtain ⟨rest, h1, _⟩ := build_inner_areas_buffer cfg env
          (reclassify (counters_at_commit cfg env st relation members) relation members
            (area_built cfg env st relation members).tags).2
          ((env.create_rings_relation relation members).okay || cfg.create_empty_areas,
            (reclassify (counters_at_commit cfg env st relation members) relation members
              (area_built cfg env st relation members).tags).1,
            buf ++ [area_built cfg env st relation members])
        refine ⟨area_built cfg env st relation members, rest, ?_,
          area_built_from_relation cfg env st relation members⟩
        rw [h1]
        simp
    · rw [if_neg hc]
      constructor
      · rintro ⟨a, rest, hb, ha⟩
        obtain ⟨rest', h1, h2⟩ := build_inner_areas_buffer cfg env
          (reclassify (counters_at_commit cfg env st relation members) relation members
            (area_built cfg env st relation members).tags).2
          ((env.create_rings_relation relation members).okay || cfg.create_empty_areas,
            (reclassify (counters_at_commit cfg env st relation members) relation members
              (area_built cfg env st relation members).tags).1,
            buf)
        rw [h1] at hb
        have h3 : rest' = a :: rest := List.append_cancel_left hb
        have h4 : a.from_way = true := h2 a (by rw [h3]; exact List.mem_cons_self _ _)
        rw [ha] at h4
        exact absurd h4 (by decide)
      · rintro ⟨_, _, h⟩
        exact absurd h hc
  · have h1 : ¬ (relation.members.isEmpty = true) := by
      rw [List.isEmpty_iff]; exact hmem
    have h2 : (!cfg.ignore_invalid_locations &&
        decide ((count_extraction env st relation members).invalid_locations > 0)) = true := by
      simp only [not_or] at hloc
      have h3 : cfg.ignore_invalid_locations = false := by
        cases h : cfg.ignore_invalid_locations
        · rfl
        · exact absurd h hloc.1
      have h4 : 0 < (env.extract_segments_from_ways relation members).invalid_locations :=
        Nat.pos_of_ne_zero hloc.2
      simp [count_extraction, h3, h4]
    constructor
    · rintro ⟨a, rest, hb, _⟩
      unfold assemble_relation at hb
      rw [if_neg h1] at hb
      simp only [] at hb
      rw [if_pos h2] at hb
      exact absurd hb (hno a rest)
    · rintro ⟨_, h, _⟩
      exact absurd h hloc

/-- The no_tags_on_relation counter at the commit decision: the counter before
the call, plus one when tags were added and taken from the outer ways. -/
theorem no_tags_at_commit (cfg : Config) (env : Collaborators) (st : Stats)
    (relation : Relation) (members : List WayPtr)
    (hok : ((env.create_rings_relation relation members).okay || cfg.create_empty_areas) = true) :
    (counters_at_commit cfg env st relation members).no_tags_on_relation =
      st.no_tags_on_relation + (if non_ignored relation.tags = [] then 1 else 0) := by
  have h := (create_area_relation_tagged cfg env
    (count_members (count_extraction env st relation members) members) relation members hok).1
  have h0 : (count_members (count_extraction env st relation members)
      members).no_tags_on_relation = st.no_tags_on_relation := by
    unfold count_members count_extraction
    simp only []
    split_ifs <;> rfl
  unfold counters_at_commit
  rw [h, h0]

/-- C19, as amended: the commit decision of a relation assembly depends on the
assembler's earlier calls through one fact only, whether no_tags_on_relation
is zero before the call: for two states that agree on it, and the same buffer,
relation, members, configuration and collaborator results, the relation's area
is committed in one run iff it is committed in the other. When the counter is
zero before the call (a fresh assembler) and the call reaches the commit
decision with `okay` true, the area is committed iff new-style polygons are
enabled and this call took its tags from the relation, or old-style polygons
are enabled and this call fell back to the outer ways. -/
theorem commit_depends_on_no_tags_counter (cfg : Config) (env : Collaborators)
    (st st' : Stats) (buf : Buffer) (relation : Relation) (members : List WayPtr)
    (hsame : st.no_tags_on_relation = 0 ↔ st'.no_tags_on_relation = 0) :
    (relation_area_committed buf (assemble_relation cfg env st buf relation members) ↔
      relation_area_committed buf (assemble_relation cfg env st' buf relation members)) ∧
    (st.no_tags_on_relation = 0 → relation.members ≠ [] →
      (cfg.ignore_invalid_locations = true ∨
        (env.extract_segments_from_ways relation members).invalid_locations = 0) →
      ((env.create_rings_relation relation members).okay || cfg.create_empty_areas) = true →
      (relation_area_committed buf (assemble_relation cfg env st buf relation members) ↔
        (cfg.create_new_style_polygons = true ∧ non_ignored relation.tags ≠ []) ∨
        (cfg.create_old_style_polygons = true ∧ non_ignored relation.tags = []))) := by
  have key : ∀ s s' : Stats, (s.no_tags_on_relation = 0 ↔ s'.no_tags_on_relation = 0) →
      commits cfg (counters_at_commit cfg env s relation members)
        ((env.create_rings_relation relation members).okay || cfg.create_empty_areas) =
      commits cfg (counters_at_commit cfg env s' relation members)
        ((env.create_rings_relation relation members).okay || cfg.create_empty_areas) := by
    intro s s' hs
    by_cases hok : ((env.create_rings_relation relation members).okay ||
        cfg.create_empty_areas) = true
    · have e1 := no_tags_at_commit cfg env s relation members hok
      have e2 := no_tags_at_commit cfg env s' relation members hok
      have hz : (counters_at_commit cfg env s relation members).no_tags_on_relation = 0 ↔
          (counters_at_commit cfg env s' relation members).no_tags_on_relation = 0 := by
        rw [e1, e2]
        split_ifs <;> simp [hs]
      rw [hok]
      unfold commits
      simp only [if_true]
      by_cases hz1 : (counters_at_commit cfg env s relation members).no_tags_on_relation = 0
      · have hz2 := hz.1 hz1
        simp [hz1, hz2]
      · have hz2 : ¬ (counters_at_commit cfg env s' relation members).no_tags_on_relation = 0 :=
          fun h => hz1 (hz.2 h)
        simp [hz1, hz2]
    · have : ((env.create_rings_relation relation members).okay || cfg.create_empty_areas)
          = false := by
        simpa using hok
      rw [this]
      simp [commits]
  constructor
  · rw [relation_area_committed_iff, relation_area_committed_iff, key st st' hsame]
  · intro h0 hmem hloc hok
    rw [relation_area_committed_iff]
    have e1 := no_tags_at_commit cfg env st relation members hok
    rw [h0] at e1
    rw [hok]
    unfold commits
    simp only [if_true]
    by_cases he : non_ignored relation.tags = []
    · rw [if_pos he] at e1
      simp [e1, he, hmem, hloc]
    · rw [if_neg he] at e1
      simp [e1, he, hmem, hloc]

/-- C19, witness: two fresh assemblers that differ in from_ways only commit
the lake relation's area alike. -/
theorem commit_depends_on_no_tags_counter_witness :
    (Stats.zero.no_tags_on_relation = 0 ↔
      ({ Stats.zero with from_ways := 4 } : Stats).no_tags_on_relation = 0) ∧
    (relation_area_committed [] (assemble_relation cfg_new_style env_outer_inner Stats.zero []
        lake_relation [lake_outer, island_same]) ↔
      relation_area_committed [] (assemble_relation cfg_new_style env_outer_inner
        { Stats.zero with from_ways := 4 } [] lake_relation [lake_outer, island_same])) :=
  ⟨by decide,
    (commit_depends_on_no_tags_counter cfg_new_style env_outer_inner Stats.zero
      { Stats.zero with from_ways := 4 } [] lake_relation [lake_outer, island_same]
      (by decide)).1⟩

/-- C19, counterexample: new-style polygons only. On a fresh assembler the lake
relation, tagged name=Lake and natural=water, has its area committed. On an
assembler that has assembled the untagged (old-style) relation before, so that
no_tags_on_relation is 1, the same call with the same buffer commits nothing,
although this call takes its tags from the relation. -/
theorem commit_depends_on_history_counterexample :
    (assemble_relation cfg_new_style env_outer_inner Stats.zero [] untagged_lake_relation
      [lake_outer, source_only_island]).2.1
      = { Stats.zero with from_relations := 1, member_ways := 2, no_tags_on_relation := 1 } ∧
    (assemble_relation cfg_new_style env_outer_inner Stats.zero [] lake_relation
      [lake_outer, island_same]).2.2
      = [⟨false, 5, [⟨"name", "Lake"⟩, ⟨"natural", "water"⟩],
          [⟨true, [lake_outer]⟩, ⟨false, [island_same]⟩]⟩] ∧
    (assemble_relation cfg_new_style env_outer_inner
      (assemble_relation cfg_new_style env_outer_inner Stats.zero [] untagged_lake_relation
        [lake_outer, source_only_island]).2.1
      [] lake_relation [lake_outer, island_same]).2.2 = [] ∧
    relation_area_committed [] (assemble_relation cfg_new_style env_outer_inner Stats.zero []
      lake_relation [lake_outer, island_same]) ∧
    ¬ relation_area_committed [] (assemble_relation cfg_new_style env_outer_inner
      (assemble_relation cfg_new_style env_outer_inner Stats.zero [] untagged_lake_relation
        [lake_outer, source_only_island]).2.1
      [] lake_relation [lake_outer, island_same]) := by
  refine ⟨by decide, by decide, by decide,
    ⟨⟨false, 5, [⟨"name", "Lake"⟩, ⟨"natural", "water"⟩],
      [⟨true, [lake_outer]⟩, ⟨false, [island_same]⟩]⟩, [], by decide, rfl⟩, ?_⟩
  rintro ⟨a, rest, h, _⟩
  have h2 : (assemble_relation cfg_new_style env_outer_inner
      (assemble_relation cfg_new_style env_outer_inner Stats.zero [] untagged_lake_relation
        [lake_outer, source_only_island]).2.1
      [] lake_relation [lake_outer, island_same]).2.2 = [] := by decide
  rw [h2] at h
  simp at h

/-! ## The map `counter` does not depend on the order of counting -/

theorem all_kvs_perm_of_tags (ws ws1 : List WayPtr)
    (h : List.Forall₂ (fun a b => a.way.tags.Perm b.way.tags) ws ws1) :
    (all_kvs ws).Perm (all_kvs ws1) := by
  induction h with
  | nil => exact List.Perm.refl _
  | cons hab _ ih =>
    simp only [all_kvs]
    exact List.Perm.append (hab.map kv_of) ih

theorem all_kvs_perm_of_ways (ws1 ws2 : List WayPtr) (h : ws1.Perm ws2) :
    (all_kvs ws1).Perm (all_kvs ws2) := by
  induction h with
  | nil => exact List.Perm.refl _
  | cons x _ ih =>
    simp only [all_kvs]
    exact List.Perm.append_left _ ih
  | swap x y l =>
    simp only [all_kvs, ← List.append_assoc]
    exact List.Perm.append_right _ List.perm_append_comm
  | trans _ _ ih1 ih2 => exact ih1.trans ih2

/-- Two key-sorted lists with the same entries are the same list. -/
theorem key_sorted_ext (m1 m2 : List (List Char × Nat)) (h1 : KeySorted m1)
    (h2 : KeySorted m2) (h : ∀ e, e ∈ m1 ↔ e ∈ m2) : m1 = m2 := by
  have hirr : ∀ m : List (List Char × Nat), KeySorted m → m.Nodup := by
    intro m hm
    unfold KeySorted at hm
    refine List.Pairwise.imp ?_ hm
    intro a b hab e
    rw [e, string_lt_irrefl] at hab
    exact Bool.false_ne_true hab
  haveI : IsAntisymm (List Char × Nat) (fun a b => string_lt a.1 b.1 = true) :=
    ⟨fun a b hab hba => by
      have := string_lt_trans _ _ _ hab hba
      rw [string_lt_irrefl] at this
      exact absurd this Bool.false_ne_true⟩
  exact List.eq_of_perm_of_sorted ((List.perm_ext_iff_of_nodup (hirr m1 h1) (hirr m2 h2)).2 h)
    h1 h2

theorem count_tags_of_perm (ws ws' : List WayPtr) (h : (all_kvs ws).Perm (all_kvs ws')) :
    count_tags ws = count_tags ws' := by
  apply key_sorted_ext _ _ (count_tags_sorted ws) (count_tags_sorted ws')
  rintro ⟨k, c⟩
  have hk : List.count k (all_kvs ws) = List.count k (all_kvs ws') :=
    h.countP_eq (fun x => x == k)
  rw [mem_count_tags, mem_count_tags, hk]

/-! ## C14: the tag selection does not depend on order or history -/

/-- C14: the several-outer-ways merge emits the same tag list whatever the
order of the tags inside each way (`ws1` lists the ways of `ws` with their tags
reordered) and whatever the order of the ways (`ws2` reorders `ws1`), and so
does the fallback of relation-tag selection when there is more than one way;
and relation-tag selection on the same relation, configuration and rings
yields the identical tag list whatever the counters and the builder it starts
from, so also when it is run a second time. -/
theorem tag_selection_ignores_order (ws ws1 ws2 : List WayPtr)
    (htags : List.Forall₂ (fun a b => a.way.tags.Perm b.way.tags) ws ws1)
    (hways : ws1.Perm ws2) :
    add_common_tags ws2 = add_common_tags ws ∧
    (ws.length ≠ 1 → tags_from_ways ws2 = tags_from_ways ws) ∧
    (∀ (cfg : Config) (st st' : Stats) (rings : List Ring) (builder builder' : Area)
        (relation : Relation),
      (add_tags_to_area_relation cfg st rings builder relation).2.tags =
        (add_tags_to_area_relation cfg st' rings builder' relation).2.tags) := by
  have hlen : ws2.length = ws.length := by
    rw [← hways.length_eq, htags.length_eq]
  have hperm : (all_kvs ws2).Perm (all_kvs ws) :=
    ((all_kvs_perm_of_tags ws ws1 htags).trans (all_kvs_perm_of_ways ws1 ws2 hways)).symm
  have hc : add_common_tags ws2 = add_common_tags ws := by
    unfold add_common_tags
    simp only []
    rw [count_tags_of_perm ws2 ws hperm, hlen]
  refine ⟨hc, ?_, ?_⟩
  · intro h1
    have h2 : ws2.length ≠ 1 := by rw [hlen]; exact h1
    have e : ∀ l : List WayPtr, l.length ≠ 1 → tags_from_ways l = add_common_tags l := by
      intro l hl
      match l, hl with
      | [], _ => rfl
      | [p], hl => exact absurd rfl hl
      | _ :: _ :: _, _ => rfl
    rw [e ws h1, e ws2 h2, hc]
  · intro cfg st st' rings builder builder' relation
    unfold add_tags_to_area_relation
    simp only []
    split_ifs <;> rfl

/-- C14, witness: three ways carrying name=Lake and natural=water in different
orders, merged in two different orders of the ways, give name=Lake,
natural=water both times. -/
theorem tag_selection_ignores_order_witness :
    List.Forall₂ (fun a b => a.way.tags.Perm b.way.tags) shuffled_ways shuffled_ways_tags ∧
    shuffled_ways_tags.Perm shuffled_ways_order ∧
    add_common_tags shuffled_ways_order = add_common_tags shuffled_ways ∧
    add_common_tags shuffled_ways = [⟨"name", "Lake"⟩, ⟨"natural", "water"⟩] :=
  ⟨List.Forall₂.cons (by decide) (List.Forall₂.cons (by decide)
      (List.Forall₂.cons (by decide) List.Forall₂.nil)),
    by decide,
    (tag_selection_ignores_order shuffled_ways shuffled_ways_tags shuffled_ways_order
      (List.Forall₂.cons (by decide) (List.Forall₂.cons (by decide)
        (List.Forall₂.cons (by decide) List.Forall₂.nil)))
      (by decide)).1,
    by decide⟩

/-! ## The encoding keeps the order of tags -/

theorem ne_nul_toNat_pos (c : Char) (h : c ≠ NUL) : 0 < c.toNat := by
  apply Nat.pos_of_ne_zero
  intro h0
  exact h (char_toNat_inj c NUL (by rw [h0]; rfl))

theorem string_lt_encoded (xs ys u v : List Char) (hx : ∀ c ∈ xs, c ≠ NUL)
    (hy : ∀ c ∈ ys, c ≠ NUL) :
    string_lt (xs ++ NUL :: u) (ys ++ NUL :: v) =
      (string_lt xs ys || (decide (xs = ys) && string_lt u v)) := by
  have hnul : NUL.toNat = 0 := rfl
  induction xs generalizing ys with
  | nil =>
    cases ys with
    | nil => simp [string_lt]
    | cons y ys =>
      have := ne_nul_toNat_pos y (hy y (List.mem_cons_self _ _))
      simp [string_lt, hnul, this]
  | cons x xs ih =>
    have hxpos := ne_nul_toNat_pos x (hx x (List.mem_cons_self _ _))
    cases ys with
    | nil =>
      have h1 : ¬ x.toNat < 0 := Nat.not_lt_zero _
      simp [string_lt, hnul, hxpos]
    | cons y ys =>
      have ih' := ih ys (fun c hc => hx c (List.mem_cons_of_mem _ hc))
        (fun c hc => hy c (List.mem_cons_of_mem _ hc))
      simp only [List.cons_append, string_lt]
      by_cases h1 : x.toNat < y.toNat
      · simp [h1]
      · by_cases h2 : y.toNat < x.toNat
        · have hne : x ≠ y := by
            intro e
            rw [e] at h2
            exact Nat.lt_irrefl _ h2
          simp [h1, h2, hne]
        · have hxy : x = y := char_toNat_inj x y (by omega)
          subst hxy
          simp only [h1, if_false, List.cons.injEq, true_and]
          exact ih'

theorem nul_free_iff (s : String) : nul_free s = true ↔ ∀ c ∈ s.toList, c ≠ NUL := by
  simp [nul_free]

/-- The encoding `key NUL value` keeps the order of tags with NUL-free keys
and values. -/
theorem kv_of_order (a b : Tag) (ha : nul_free a.key = true) (hb : nul_free b.key = true) :
    string_lt (kv_of a) (kv_of b) = tag_lt a b := by
  obtain ⟨ak, av⟩ := a
  obtain ⟨bk, bv⟩ := b
  simp only [kv_of, List.append_assoc, List.singleton_append, tag_lt]
  rw [string_lt_encoded _ _ _ _ ((nul_free_iff ak).1 ha) ((nul_free_iff bk).1 hb)]
  congr 2
  rw [Bool.eq_iff_iff]
  simp only [decide_eq_true_eq, beq_iff_eq]
  constructor
  · intro h
    exact String.ext h
  · intro h
    rw [h]

theorem count_all_kvs_eq_occurrences (ws : List WayPtr)
    (hwf : ∀ w ∈ ws, tags_wf w.way.tags = true) (t : Tag)
    (ht : nul_free t.key = true ∧ nul_free t.value = true) :
    (all_kvs ws).count (kv_of t) = occurrences t ws := by
  induction ws with
  | nil => rfl
  | cons w ws ih =>
    simp only [all_kvs, occurrences, List.count_append]
    rw [count_map_kv_of _ (hwf w (List.mem_cons_self _ _)) t ht,
      ih (fun w' hw' => hwf w' (List.mem_cons_of_mem _ hw'))]

/-- Every key of the map `counter` is the encoding of a tag of one of the
ways. -/
theorem count_tags_entry (ws : List WayPtr) (k : List Char) (c : Nat)
    (h : (k, c) ∈ count_tags ws) : ∃ w ∈ ws, ∃ t ∈ w.way.tags, kv_of t = k := by
  have h1 := (mem_count_tags ws k c).1 h
  apply (mem_all_kvs ws k).1
  apply List.count_pos_iff.1
  omega

/-- With C-string tags, `add_common_tags` emits exactly the tags listed as
many times as there are ways. -/
theorem mem_add_common_tags_iff (ws : List WayPtr) (hn : 0 < ws.length)
    (hwf : ∀ w ∈ ws, tags_wf w.way.tags = true) (t : Tag)
    (ht : nul_free t.key = true ∧ nul_free t.value = true) :
    t ∈ add_common_tags ws ↔ occurrences t ws = ws.length := by
  rw [mem_add_common_tags ws hn, ← count_all_kvs_eq_occurrences ws hwf t ht]
  constructor
  · rintro ⟨k, hk, hkt⟩
    have hpos : 0 < (all_kvs ws).count k := by omega
    obtain ⟨w', hw', t', ht', e⟩ := (mem_all_kvs ws k).1 (List.count_pos_iff.1 hpos)
    have hwf' := tags_wf_mem _ (hwf w' hw') t' ht'
    have : t' = t := by
      rw [← hkt, ← e, tag_of_kv_kv_of t' hwf'.1 hwf'.2]
    subst this
    rw [e]
    exact hk
  · intro h
    exact ⟨kv_of t, h, tag_of_kv_kv_of t ht.1 ht.2⟩

/-! ## C18: the order of the emitted tags -/

/-- C18, as amended: the tag list emitted by add_common_tags is in strictly
increasing order of (key, value), byte-wise on the key, then on the value, so
no pair is emitted more than once, even when a way lists the same pair several
times; a pair is emitted, exactly once, iff the number of times the ways list
it equals the number of ways. The encoding key NUL value is injective and
order-preserving for NUL-free keys and values, and splitting at the first NUL
returns the original key and value. -/
theorem common_tags_strictly_increasing (ws : List WayPtr)
    (hwf : ∀ w ∈ ws, tags_wf w.way.tags = true) :
    (add_common_tags ws).Pairwise (fun a b => tag_lt a b = true) ∧
    (add_common_tags ws).Nodup ∧
    (∀ t : Tag, nul_free t.key = true → nul_free t.value = true →
      (add_common_tags ws).count t =
        if 0 < ws.length ∧ occurrences t ws = ws.length then 1 else 0) ∧
    (∀ a b : Tag, nul_free a.key = true → nul_free a.value = true →
      nul_free b.key = true → nul_free b.value = true →
      tag_of_kv (kv_of a) = a ∧ (kv_of a = kv_of b → a = b) ∧
      string_lt (kv_of a) (kv_of b) = tag_lt a b) := by
  have hsorted : (add_common_tags ws).Pairwise (fun a b => tag_lt a b = true) := by
    unfold add_common_tags
    simp only []
    rw [List.pairwise_map]
    have hs : ((count_tags ws).filter (fun t_c => t_c.2 == ws.length)).Pairwise
        (fun a b => string_lt a.1 b.1 = true) :=
      List.Pairwise.filter _ (count_tags_sorted ws)
    refine List.Pairwise.imp_of_mem ?_ hs
    intro x y hx hy hxy
    obtain ⟨k1, c1⟩ := x
    obtain ⟨k2, c2⟩ := y
    obtain ⟨w1, hw1, t1, ht1, e1⟩ := count_tags_entry ws k1 c1 (List.mem_filter.1 hx).1
    obtain ⟨w2, hw2, t2, ht2, e2⟩ := count_tags_entry ws k2 c2 (List.mem_filter.1 hy).1
    have f1 := tags_wf_mem _ (hwf w1 hw1) t1 ht1
    have f2 := tags_wf_mem _ (hwf w2 hw2) t2 ht2
    simp only at hxy ⊢
    rw [← e1, ← e2, tag_of_kv_kv_of t1 f1.1 f1.2, tag_of_kv_kv_of t2 f2.1 f2.2,
      ← kv_of_order t1 t2 f1.1 f2.1, e1, e2]
    exact hxy
  have hnodup : (add_common_tags ws).Nodup := by
    by_cases hn : 0 < ws.length
    · exact add_common_tags_nodup ws hn hwf
    · have : ws = [] := List.length_eq_zero.1 (by omega)
      rw [this]
      exact List.nodup_nil
  refine ⟨hsorted, hnodup, ?_, ?_⟩
  · intro t hk hv
    by_cases hn : 0 < ws.length
    · by_cases ho : occurrences t ws = ws.length
      · rw [if_pos ⟨hn, ho⟩]
        exact List.count_eq_one_of_mem hnodup
          ((mem_add_common_tags_iff ws hn hwf t ⟨hk, hv⟩).2 ho)
      · rw [if_neg (fun h => ho h.2)]
        exact List.count_eq_zero_of_not_mem
          (fun h => ho ((mem_add_common_tags_iff ws hn hwf t ⟨hk, hv⟩).1 h))
    · have : ws = [] := List.length_eq_zero.1 (by omega)
      rw [if_neg (fun h => hn h.1), this]
      rfl
  · intro a b hak hav hbk hbv
    exact ⟨tag_of_kv_kv_of a hak hav, kv_of_inj a b ⟨hak, hav⟩ ⟨hbk, hbv⟩,
      kv_of_order a b hak hbk⟩

/-- C18, witness: three ways carrying name=Lake and natural=water, one of them
boat=no as well: name=Lake comes before natural=water and each is emitted
once. -/
theorem common_tags_strictly_increasing_witness :
    (∀ w ∈ shuffled_ways, tags_wf w.way.tags = true) ∧
    add_common_tags shuffled_ways = [⟨"name", "Lake"⟩, ⟨"natural", "water"⟩] ∧
    (add_common_tags shuffled_ways).Pairwise (fun a b => tag_lt a b = true) ∧
    (add_common_tags shuffled_ways).count ⟨"name", "Lake"⟩ = 1 :=
  ⟨by decide, by decide,
    (common_tags_strictly_increasing shuffled_ways (by decide)).1,
    ((common_tags_strictly_increasing shuffled_ways (by decide)).2.2.1 ⟨"name", "Lake"⟩
      (by decide) (by decide)).trans (by decide)⟩

/-- C18, counterexample: two ways carry natural=water and the first lists it
twice. The pair is on every way, it is counted three times for two ways, and
it is not emitted at all. -/
theorem repeated_common_pair_counterexample :
    (∀ w ∈ repeated_water_ways, (⟨"natural", "water"⟩ : Tag) ∈ w.way.tags) ∧
    occurrences ⟨"natural", "water"⟩ repeated_water_ways = 3 ∧
    add_common_tags repeated_water_ways = [] ∧
    (add_common_tags repeated_water_ways).count ⟨"natural", "water"⟩ = 0 := by
  decide

end AssemblerLegacy
